import Mathlib

/-!
# Verification of the LSB steganography core

Shallow embedding of the repository's core modules and proofs of the
specification claims about them:

* `core/stego.py` — payload framing, carrier-bit addressing, embedding and
  extraction over RGB images;
* `core/risk.py` — chi-square LSB statistics and the heuristic risk
  classifier;
* `core/analysis.py` — the (method × bits) benchmark sweep.

Modelling conventions:

* A Python `str` message/password is represented by its UTF-8 byte sequence
  (`List Nat`, every element `< 256`); UTF-8 encoding/decoding is the identity
  on those byte sequences, so round-trip statements are at the byte level.
* Python exceptions (`ValueError`, `OverflowError`) become `Except StegoError`.
* Python `float` arithmetic in the risk assessor is modelled over `ℚ`;
  every constant involved (0.40, 0.02, …) is compared exactly, as in the code.
* PIL `Image` objects in mode `"RGB"` become `Image`: a width, a height and a
  row-major (y outer, x inner) flat list of 3-channel pixels.
-/

namespace Stego

/-- Decidable equality on `Except`, so that concrete runs of the fallible
operations can be checked by `decide`. -/
instance {ε α : Type} [DecidableEq ε] [DecidableEq α] : DecidableEq (Except ε α)
  | Except.error a, Except.error b =>
    if h : a = b then isTrue (by rw [h])
    else isFalse (by intro hc; cases hc; exact h rfl)
  | Except.error _, Except.ok _ => isFalse (by intro h; cases h)
  | Except.ok _, Except.error _ => isFalse (by intro h; cases h)
  | Except.ok a, Except.ok b =>
    if h : a = b then isTrue (by rw [h])
    else isFalse (by intro hc; cases hc; exact h rfl)

/-- Error taxonomy of `core/stego.py` (each constructor corresponds to one
`raise ValueError(...)` / `OverflowError` site in the source). -/
inductive StegoError where
  /-- `validate_bits_and_method`: bad bits or unknown method. -/
  | invalidParameter
  /-- `encode_payload_into_image`: payload bits exceed carrier bits
  (message carries both counts). -/
  | capacityExceeded (requested : Nat) (available : Nat)
  /-- `prepare_payload`: `len(protected).to_bytes(4, "big")` overflows for
  lengths `≥ 2^32` (Python raises `OverflowError`). -/
  | lengthOverflow
  /-- `decode_payload_from_image`: fewer than 32 carrier bits. -/
  | missingHeader
  /-- `decode_payload_from_image`: declared length exceeds capacity. -/
  | invalidLength
  /-- `decode_payload_from_image` / `decode_payload`: payload truncated. -/
  | incompletePayload
  /-- `decode_payload`: fewer than 4 bytes of payload. -/
  | shortData
deriving DecidableEq, Repr

/-- One RGB pixel: three 8-bit channels (the `< 256` bound is kept in
`Image.wf`, as PIL guarantees it for mode "RGB"). -/
structure Pixel where
  c0 : Nat
  c1 : Nat
  c2 : Nat
deriving DecidableEq, Repr

/-- Channel access by index, as Python's `channels[channel_idx]`
(the code only ever uses indices 0, 1, 2). -/
def Pixel.get : Pixel → Nat → Nat
  | px, 0 => px.c0
  | px, 1 => px.c1
  | px, 2 => px.c2
  | _, _ + 3 => 0

/-- Channel update by index, as Python's `channels[channel_idx] = v`. -/
def Pixel.set : Pixel → Nat → Nat → Pixel
  | px, 0, v => { px with c0 := v }
  | px, 1, v => { px with c1 := v }
  | px, 2, v => { px with c2 := v }
  | px, _ + 3, _ => px

/-- A PIL image in mode "RGB": pixels stored row-major (y outer, x inner),
which is exactly the traversal order of the Python loops. -/
structure Image where
  width : Nat
  height : Nat
  pixels : List Pixel
deriving DecidableEq, Repr

/-- Well-formedness guaranteed by PIL for mode "RGB": the pixel grid has
`width * height` entries and every channel is an 8-bit value. -/
def Image.wf (img : Image) : Prop :=
  img.pixels.length = img.width * img.height ∧
    ∀ px ∈ img.pixels, px.c0 < 256 ∧ px.c1 < 256 ∧ px.c2 < 256

instance (img : Image) : Decidable img.wf := by
  unfold Image.wf; infer_instance

/-- `SUPPORTED_METHODS = {"sequential", "interleaved"}`. -/
def SUPPORTED_METHODS : List String := ["sequential", "interleaved"]

/-- `validate_bits_and_method`: `bits_per_channel` must be 1, 2 or 3 and
`method` must be supported, else `ValueError`. -/
def validate_bits_and_method (bits_per_channel : Nat) (method : String) :
    Except StegoError Unit :=
  if bits_per_channel = 1 ∨ bits_per_channel = 2 ∨ bits_per_channel = 3 then
    if method ∈ SUPPORTED_METHODS then Except.ok ()
    else Except.error StegoError.invalidParameter
  else Except.error StegoError.invalidParameter

/-- Body of `get_carrier_order` after validation: the list of
`(channel, bit_idx)` pairs in the order the two comprehensions produce. -/
def carrier_pairs (bits_per_channel : Nat) (method : String) : List (Nat × Nat) :=
  if method = "interleaved" then
    (List.range bits_per_channel).flatMap fun bit_idx =>
      (List.range 3).map fun channel => (channel, bit_idx)
  else
    (List.range 3).flatMap fun channel =>
      (List.range bits_per_channel).map fun bit_idx => (channel, bit_idx)

/-- `get_carrier_order`: validates, then returns the pair list. -/
def get_carrier_order (bits_per_channel : Nat) (method : String) :
    Except StegoError (List (Nat × Nat)) :=
  match validate_bits_and_method bits_per_channel method with
  | Except.error e => Except.error e
  | Except.ok _ => Except.ok (carrier_pairs bits_per_channel method)

/-- `max_message_bytes(image_size, bits_per_channel)` with the size passed as
`width`, `height`.  (The function also validates `bits_per_channel`; callers
below that must propagate that `ValueError` run the validation themselves.) -/
def max_message_bytes (width height : Nat) (bits_per_channel : Nat) : Nat :=
  let total_bytes := width * height * 3 * bits_per_channel / 8
  max 0 (total_bytes - 4)

/-- Helper for `xor_with_password`: index-aware map of
`b ^ pw[i % len(pw)]` over the data bytes. -/
def xor_mask (pw : List Nat) : Nat → List Nat → List Nat
  | _, [] => []
  | i, b :: rest => (b ^^^ pw.getD (i % pw.length) 0) :: xor_mask pw (i + 1) rest

/-- `xor_with_password`: identity for an empty password, else repeating-key
XOR of the data with the password bytes. -/
def xor_with_password (data : List Nat) (password : List Nat) : List Nat :=
  if password.isEmpty then data else xor_mask password 0 data

/-- Python `n.to_bytes(4, "big")` for `n < 2^32`: four big-endian bytes. -/
def to_bytes_4_be (n : Nat) : List Nat :=
  [n / 2 ^ 24 % 256, n / 2 ^ 16 % 256, n / 2 ^ 8 % 256, n % 256]

/-- Python `int.from_bytes(data, "big")`. -/
def from_bytes_be (data : List Nat) : Nat :=
  data.foldl (fun acc b => acc * 256 + b) 0

/-- `prepare_payload`: mask the UTF-8 message bytes with the password and
prepend the 4-byte big-endian length of the masked body.  Python's
`.to_bytes(4, "big")` raises `OverflowError` for lengths `≥ 2^32`. -/
def prepare_payload (message password : List Nat) : Except StegoError (List Nat) :=
  let masked := xor_with_password message password
  if masked.length < 2 ^ 32 then
    Except.ok (to_bytes_4_be masked.length ++ masked)
  else Except.error StegoError.lengthOverflow

/-- `decode_payload`: read the 4-byte header, slice exactly that many bytes,
unmask.  (The final `decode("utf-8", errors="replace")` is the identity on the
byte sequences we model, so the masked-then-unmasked bytes are returned.) -/
def decode_payload (payload : List Nat) (password : List Nat) :
    Except StegoError (List Nat) :=
  if payload.length < 4 then Except.error StegoError.shortData
  else
    let msg_len := from_bytes_be (payload.take 4)
    let msg_bytes := (payload.drop 4).take msg_len
    if msg_bytes.length ≠ msg_len then Except.error StegoError.incompletePayload
    else Except.ok (xor_with_password msg_bytes password)

/-- `_bytes_to_bits` for one byte: bits appended for `shift in range(7,-1,-1)`,
i.e. most significant bit first. -/
def byte_bits (byte : Nat) : List Bool :=
  [byte.testBit 7, byte.testBit 6, byte.testBit 5, byte.testBit 4,
   byte.testBit 3, byte.testBit 2, byte.testBit 1, byte.testBit 0]

/-- `_bytes_to_bits`. -/
def bytes_to_bits (data : List Nat) : List Bool :=
  data.flatMap byte_bits

/-- `_bits_to_int`: big-endian fold `value = (value << 1) | bit`. -/
def bits_to_nat (bits : List Bool) : Nat :=
  bits.foldl (fun value bit => 2 * value + (if bit then 1 else 0)) 0

/-- `_bits_to_bytes`: consume 8-bit chunks, drop a trailing incomplete chunk. -/
def bits_to_bytes (bits : List Bool) : List Nat :=
  if _h : 8 ≤ bits.length then
    bits_to_nat (bits.take 8) :: bits_to_bytes (bits.drop 8)
  else []
termination_by bits.length
decreasing_by simp; omega

/-- Python `channels[channel_idx] |= (1 << bit_idx)`. -/
def set_bit (v i : Nat) : Nat := v ||| (1 <<< i)

/-- Python `channels[channel_idx] &= ~(1 << bit_idx)`: on (arbitrary-precision,
non-negative) Python ints this clears bit `i`; when the bit is set that is
exactly XOR with `1 <<< i`, otherwise a no-op. -/
def clear_bit (v i : Nat) : Nat := if v.testBit i then v ^^^ (1 <<< i) else v

/-- One iteration of the inner carrier loop of `encode_payload_into_image`:
set or clear the addressed bit of the addressed channel. -/
def apply_bit (px : Pixel) (channel_idx bit_idx : Nat) (bit : Bool) : Pixel :=
  if bit then px.set channel_idx (set_bit (px.get channel_idx) bit_idx)
  else px.set channel_idx (clear_bit (px.get channel_idx) bit_idx)

/-- The inner carrier loop over one pixel: consume at most one payload bit per
carrier pair, breaking out as soon as the bit stream is exhausted; returns the
(possibly partially) updated pixel and the remaining bit stream. -/
def embed_pixel : List (Nat × Nat) → Pixel → List Bool → Pixel × List Bool
  | [], px, bits => (px, bits)
  | _ :: _, px, [] => (px, [])
  | (channel_idx, bit_idx) :: rest, px, bit :: bits =>
      embed_pixel rest (apply_bit px channel_idx bit_idx bit) bits

/-- The pixel loop of `encode_payload_into_image`: each visited pixel is
written to the output copy; once the bit stream empties the function returns
early, leaving all later pixels as in the copy (i.e. unchanged). -/
def embed_pixels (order : List (Nat × Nat)) : List Pixel → List Bool → List Pixel
  | [], _ => []
  | px :: rest, bits =>
      let step := embed_pixel order px bits
      step.1 :: (if step.2.isEmpty then rest else embed_pixels order rest step.2)

/-- `encode_payload_into_image`: validate, check capacity (the error carries
the requested and available bit counts), then walk the carrier. -/
def encode_payload_into_image (image : Image) (payload : List Nat)
    (bits_per_channel : Nat) (method : String) : Except StegoError Image :=
  match validate_bits_and_method bits_per_channel method with
  | Except.error e => Except.error e
  | Except.ok _ =>
    let total_bits_capacity := image.width * image.height * 3 * bits_per_channel
    let payload_bits := payload.length * 8
    if payload_bits > total_bits_capacity then
      Except.error (StegoError.capacityExceeded payload_bits total_bits_capacity)
    else
      Except.ok { image with
        pixels := embed_pixels (carrier_pairs bits_per_channel method)
          image.pixels (bytes_to_bits payload) }

/-- The bits `_iter_bits_from_image` yields for one pixel. -/
def pixel_bits (order : List (Nat × Nat)) (px : Pixel) : List Bool :=
  order.map fun p => (px.get p.1).testBit p.2

/-- `_iter_bits_from_image`, fully materialised: `(channels[ch] >> bi) & 1`
for every pixel in raster order and every carrier pair in order. -/
def image_bits (img : Image) (bits_per_channel : Nat) (method : String) : List Bool :=
  img.pixels.flatMap (pixel_bits (carrier_pairs bits_per_channel method))

/-- `decode_payload_from_image`: validate; read 32 header bits (fewer ⇒
`MissingHeader`); reject lengths over capacity (`InvalidLength`); read exactly
`msg_len * 8` further bits (fewer ⇒ `IncompletePayload`); return the length
header re-serialised plus the payload bytes.  Reading never writes. -/
def decode_payload_from_image (image : Image) (bits_per_channel : Nat)
    (method : String) : Except StegoError (List Nat) :=
  match validate_bits_and_method bits_per_channel method with
  | Except.error e => Except.error e
  | Except.ok _ =>
    let bits := image_bits image bits_per_channel method
    if bits.length < 32 then Except.error StegoError.missingHeader
    else
      let msg_len := bits_to_nat (bits.take 32)
      if msg_len > max_message_bytes image.width image.height bits_per_channel then
        Except.error StegoError.invalidLength
      else
        let rest := bits.drop 32
        if rest.length < msg_len * 8 then Except.error StegoError.incompletePayload
        else Except.ok (to_bytes_4_be msg_len ++ bits_to_bytes (rest.take (msg_len * 8)))

/-- `encode_text_into_image` — frame, then embed. -/
def encode_text_into_image (image : Image) (message password : List Nat)
    (bits_per_channel : Nat) (method : String) : Except StegoError Image :=
  match prepare_payload message password with
  | Except.error e => Except.error e
  | Except.ok payload => encode_payload_into_image image payload bits_per_channel method

/-- `decode_text_from_image` — extract, then unframe. -/
def decode_text_from_image (image : Image) (password : List Nat)
    (bits_per_channel : Nat) (method : String) : Except StegoError (List Nat) :=
  match decode_payload_from_image image bits_per_channel method with
  | Except.error e => Except.error e
  | Except.ok payload => decode_payload payload password

/-- The round trip of claim C1: decode what encode produced (an encode failure
propagates, since then there is no image to decode from). -/
def encode_then_decode_text (image : Image) (message password : List Nat)
    (bits_per_channel : Nat) (method : String) : Except StegoError (List Nat) :=
  match encode_text_into_image image message password bits_per_channel method with
  | Except.error e => Except.error e
  | Except.ok encoded => decode_text_from_image encoded password bits_per_channel method

/-! ## `core/risk.py` -/

/-- Return record of `chi_square_lsb_test` (`core/risk.py`).  Python floats
are modelled as exact rationals. -/
structure RiskStats where
  chi2 : ℚ
  zero_bits : Nat
  one_bits : Nat
  suspicious : Bool
deriving DecidableEq, Repr

/-- `chi_square_lsb_test`: `None` yields the all-zero record; otherwise count
LSBs 0 vs 1 over the three channels of every pixel,
`expected = max(1.0, total / 2.0)`, and the chi-square statistic; `suspicious`
iff `chi2 > 10.0`.  (The Python loop counts channel-major; the totals are
order-independent.) -/
def chi_square_lsb_test : Option Image → RiskStats
  | none => ⟨0, 0, 0, false⟩
  | some img =>
    let zeros : Nat := ((List.range 3).map fun channel =>
      img.pixels.countP fun px => px.get channel &&& 1 == 0).sum
    let ones : Nat := ((List.range 3).map fun channel =>
      img.pixels.countP fun px => px.get channel &&& 1 == 1).sum
    let total := zeros + ones
    let expected : ℚ := max 1 ((total : ℚ) / 2)
    let chi2 : ℚ := ((zeros : ℚ) - expected) ^ 2 / expected
      + ((ones : ℚ) - expected) ^ 2 / expected
    ⟨chi2, zeros, ones, decide (chi2 > 10)⟩

/-- `evaluate_risk` (`core/risk.py`): clamp the usage ratio into `[0, 1]`,
derive the imbalance delta and the chi-square shift, then classify by the
three-rule cascade, first match winning.  The returned level is the Python
string; the accompanying reason text is presentation-only and omitted. -/
def evaluate_risk (usage_ratio : ℚ) (stats_orig stats_enc : RiskStats) : String :=
  let u := max 0 (min 1 usage_ratio)
  let z0 : ℚ := stats_orig.zero_bits
  let o0 : ℚ := stats_orig.one_bits
  let z1 : ℚ := stats_enc.zero_bits
  let o1 : ℚ := stats_enc.one_bits
  let t0 : ℚ := max 1 (z0 + o0)
  let t1 : ℚ := max 1 (z1 + o1)
  let imbalance_orig := |z0 - o0| / t0
  let imbalance_stego := |z1 - o1| / t1
  let delta_imbalance := max 0 (imbalance_stego - imbalance_orig)
  let chi0 := stats_orig.chi2
  let chi1 := stats_enc.chi2
  let chi_shift := |chi1 - chi0| / max |chi0| (1 / 1000000000)
  let suspicious := stats_enc.suspicious
  if u ≥ 0.40 ∧ (delta_imbalance ≥ 0.02 ∨ chi_shift ≥ 0.20) then "HIGH"
  else if u ≥ 0.18 ∨ (u ≥ 0.08 ∧ (delta_imbalance ≥ 0.01 ∨ chi_shift ≥ 0.08))
      ∨ (u ≥ 0.12 ∧ suspicious = true) then "MEDIUM"
  else "LOW"

/-! ## `core/analysis.py` — the (method × bits) benchmark sweep -/

/-- Error recorded in a benchmark row (`row["error"]`): either the fixed
does-not-fit message, a caught codec exception, or a caught metric-computation
exception (reported by `skimage` as a string). -/
inductive RowError where
  | doesNotFit
  | codec (e : StegoError)
  | metric (msg : String)
deriving DecidableEq, Repr

/-- One row of `run_mode_benchmark`.  The three similarity metrics are
computed by external `skimage` float code; their values are abstracted to an
arbitrary type `M`. -/
structure BenchRow (M : Type) where
  method : String
  bits : Nat
  fit : Bool
  decode_ok : Bool
  psnr_db : Option M
  mse : Option M
  ssim : Option M
  capacity : Nat
  usage_ratio : Option ℚ
  error : Option RowError
deriving DecidableEq, Repr

/-- One (method, bits) cell of `run_mode_benchmark`.  `metrics` abstracts the
skimage psnr/mse/ssim computations (which may themselves fail — e.g. ssim on
images smaller than its window — hence the `Except`).  The capacity
computation runs `max_message_bytes`'s parameter validation, whose
`ValueError` is raised *outside* the cell's `try` and therefore escapes. -/
def bench_cell {M : Type} (metrics : Image → Image → Except String (M × M × M))
    (image : Image) (message password : List Nat) (method : String) (bits : Nat) :
    Except StegoError (BenchRow M) :=
  match validate_bits_and_method bits "sequential" with
  | Except.error e => Except.error e
  | Except.ok _ =>
    let payload_bytes := message.length
    let capacity := max_message_bytes image.width image.height bits
    if payload_bytes > capacity then
      Except.ok ⟨method, bits, false, false, none, none, none, capacity, none,
        some RowError.doesNotFit⟩
    else
      let usage : Option ℚ :=
        if capacity = 0 then none else some ((payload_bytes : ℚ) / (capacity : ℚ))
      match encode_text_into_image image message password bits method with
      | Except.error e =>
        Except.ok ⟨method, bits, true, false, none, none, none, capacity, usage,
          some (RowError.codec e)⟩
      | Except.ok encoded =>
        match decode_text_from_image encoded password bits method with
        | Except.error e =>
          Except.ok ⟨method, bits, true, false, none, none, none, capacity, usage,
            some (RowError.codec e)⟩
        | Except.ok decoded =>
          match metrics image encoded with
          | Except.error e =>
            Except.ok ⟨method, bits, true, false, none, none, none, capacity, usage,
              some (RowError.metric e)⟩
          | Except.ok (p, m, s) =>
            Except.ok ⟨method, bits, true, decide (decoded = message), some p,
              some m, some s, capacity, usage, none⟩

/-- The sweep loop: rows are appended cell by cell; an escaping exception
aborts the whole sweep with no result (Python propagates the raise). -/
def run_cells {M : Type} (metrics : Image → Image → Except String (M × M × M))
    (image : Image) (message password : List Nat) :
    List (String × Nat) → Except StegoError (List (BenchRow M))
  | [] => Except.ok []
  | cell :: rest =>
    match bench_cell metrics image message password cell.1 cell.2 with
    | Except.error e => Except.error e
    | Except.ok row =>
      match run_cells metrics image message password rest with
      | Except.error e => Except.error e
      | Except.ok rows => Except.ok (row :: rows)

/-- `run_mode_benchmark`: full cross product, method outer, bits inner. -/
def run_mode_benchmark {M : Type}
    (metrics : Image → Image → Except String (M × M × M))
    (original_image : Image) (message password : List Nat)
    (bits_options : List Nat) (methods : List String) :
    Except StegoError (List (BenchRow M)) :=
  run_cells metrics original_image message password
    (methods.flatMap fun method => bits_options.map fun bits => (method, bits))

/-! ## Claim C2 — capacity formula and monotonicity -/

/-- C2: for every `w, h ≥ 0` and `bits ∈ {1,2,3}`, `max_message_bytes` returns
exactly `max 0 (⌊w*h*3*bits/8⌋ - 4)` (stated over `ℤ`, where the subtraction
is not truncated); the value is non-negative and monotonically non-decreasing
in `w`, `h` and `bits` separately. -/
theorem max_message_bytes_formula_and_monotone (w h bits : Nat)
    (_hbits : bits = 1 ∨ bits = 2 ∨ bits = 3) :
    (max_message_bytes w h bits : ℤ) = max 0 ((w * h * 3 * bits : ℤ) / 8 - 4) ∧
    0 ≤ (max_message_bytes w h bits : ℤ) ∧
    (∀ w', w ≤ w' → max_message_bytes w h bits ≤ max_message_bytes w' h bits) ∧
    (∀ h', h ≤ h' → max_message_bytes w h bits ≤ max_message_bytes w h' bits) ∧
    (∀ bits', bits ≤ bits' → (bits' = 1 ∨ bits' = 2 ∨ bits' = 3) →
      max_message_bytes w h bits ≤ max_message_bytes w h bits') := by
  have mono : ∀ a b c d e f : Nat, a ≤ d → b ≤ e → c ≤ f →
      max_message_bytes a b c ≤ max_message_bytes d e f := by
    intro a b c d e f h1 h2 h3
    have hmul : a * b * 3 * c ≤ d * e * 3 * f :=
      Nat.mul_le_mul (Nat.mul_le_mul (Nat.mul_le_mul h1 h2) le_rfl) h3
    have hdiv : a * b * 3 * c / 8 ≤ d * e * 3 * f / 8 := Nat.div_le_div_right hmul
    simp only [max_message_bytes]
    omega
  refine ⟨?_, ?_, fun w' hw => mono _ _ _ _ _ _ hw le_rfl le_rfl,
    fun h' hh => mono _ _ _ _ _ _ le_rfl hh le_rfl,
    fun bits' hb _ => mono _ _ _ _ _ _ le_rfl le_rfl hb⟩
  · have hcast : (w : ℤ) * h * 3 * bits = ((w * h * 3 * bits : Nat) : ℤ) := by
      push_cast; ring
    simp only [max_message_bytes, hcast]
    omega
  · exact Int.ofNat_nonneg _

/-- Witness for C2 at the concrete size 128×128, bits = 1 (capacity 6140). -/
theorem max_message_bytes_formula_witness :
    ((1 : Nat) = 1 ∨ (1 : Nat) = 2 ∨ (1 : Nat) = 3) ∧
    ((max_message_bytes 128 128 1 : ℤ) = max 0 ((128 * 128 * 3 * 1 : ℤ) / 8 - 4) ∧
     0 ≤ (max_message_bytes 128 128 1 : ℤ) ∧
     (∀ w', 128 ≤ w' → max_message_bytes 128 128 1 ≤ max_message_bytes w' 128 1) ∧
     (∀ h', 128 ≤ h' → max_message_bytes 128 128 1 ≤ max_message_bytes 128 h' 1) ∧
     (∀ bits', 1 ≤ bits' → (bits' = 1 ∨ bits' = 2 ∨ bits' = 3) →
       max_message_bytes 128 128 1 ≤ max_message_bytes 128 128 bits')) :=
  ⟨Or.inl rfl, max_message_bytes_formula_and_monotone 128 128 1 (Or.inl rfl)⟩

/-! ## Claim C4 — the two carrier orders are permutations of the same set -/

/-- A pair lies in the sequential carrier order iff it lies in
`{0,1,2} × [0, bits)`. -/
theorem mem_carrier_pairs_sequential (bits channel bit_idx : Nat) :
    ((channel, bit_idx) ∈ carrier_pairs bits "sequential" ↔
      channel < 3 ∧ bit_idx < bits) := by
  simp [carrier_pairs, Prod.mk.injEq]

/-- A pair lies in the interleaved carrier order iff it lies in
`{0,1,2} × [0, bits)`. -/
theorem mem_carrier_pairs_interleaved (bits channel bit_idx : Nat) :
    ((channel, bit_idx) ∈ carrier_pairs bits "interleaved" ↔
      channel < 3 ∧ bit_idx < bits) := by
  simp [carrier_pairs, Prod.mk.injEq]
  constructor
  · rintro ⟨bi, hbi, ch, hch, rfl, rfl⟩
    exact ⟨hch, hbi⟩
  · rintro ⟨h1, h2⟩
    exact ⟨bit_idx, h2, channel, h1, rfl, rfl⟩

/-- C4: for `bits ∈ {1,2,3}` both carrier orders succeed validation, have
length `3*bits`, enumerate exactly the set `{0,1,2} × [0, bits)` without
repetition (so each is a permutation of the other), and follow the documented
nesting: sequential has `bitIndex` innermost (position `i` holds
`(i / bits, i % bits)`), interleaved has `channel` innermost (position `i`
holds `(i % 3, i / 3)`). -/
theorem carrier_order_spec (bits : Nat)
    (hbits : bits = 1 ∨ bits = 2 ∨ bits = 3) :
    get_carrier_order bits "sequential" = Except.ok (carrier_pairs bits "sequential") ∧
    get_carrier_order bits "interleaved" = Except.ok (carrier_pairs bits "interleaved") ∧
    (carrier_pairs bits "sequential").length = 3 * bits ∧
    (carrier_pairs bits "interleaved").length = 3 * bits ∧
    (carrier_pairs bits "sequential").Nodup ∧
    (carrier_pairs bits "interleaved").Nodup ∧
    (∀ channel bit_idx : Nat,
      ((channel, bit_idx) ∈ carrier_pairs bits "sequential" ↔
        channel < 3 ∧ bit_idx < bits)) ∧
    (∀ channel bit_idx : Nat,
      ((channel, bit_idx) ∈ carrier_pairs bits "interleaved" ↔
        channel < 3 ∧ bit_idx < bits)) ∧
    (carrier_pairs bits "sequential").Perm (carrier_pairs bits "interleaved") ∧
    (∀ i, i < 3 * bits →
      (carrier_pairs bits "sequential").getD i (0, 0) = (i / bits, i % bits) ∧
      (carrier_pairs bits "interleaved").getD i (0, 0) = (i % 3, i / 3)) := by
  rcases hbits with rfl | rfl | rfl <;>
    exact ⟨by rfl, by rfl, by decide, by decide, by decide, by decide,
      fun c b => mem_carrier_pairs_sequential _ c b,
      fun c b => mem_carrier_pairs_interleaved _ c b,
      by decide, by decide⟩

/-- Witness for C4 at bits = 2. -/
theorem carrier_order_spec_witness :
    ((2 : Nat) = 1 ∨ (2 : Nat) = 2 ∨ (2 : Nat) = 3) ∧
    (carrier_pairs 2 "sequential").Perm (carrier_pairs 2 "interleaved") :=
  ⟨Or.inr (Or.inl rfl),
    (carrier_order_spec 2 (Or.inr (Or.inl rfl))).2.2.2.2.2.2.2.2.1⟩

/-! ## Claim C3 — embedding at / just over capacity -/

/-- Validation succeeds exactly on `bits ∈ {1,2,3}` and a supported method. -/
theorem validate_ok (bits : Nat) (method : String)
    (hbits : bits = 1 ∨ bits = 2 ∨ bits = 3) (hm : method ∈ SUPPORTED_METHODS) :
    validate_bits_and_method bits method = Except.ok () := by
  unfold validate_bits_and_method
  rw [if_pos hbits, if_pos hm]

/-- C3 counterexample: the claim quantifies over *every* image, but on a 1×1
image at bits = 1 the capacity is 0 and embedding the 4-byte framed payload of
the empty (exactly-capacity) message fails with CapacityExceeded (32 bits
requested, 3 available) instead of succeeding. -/
theorem capacity_boundary_counterexample :
    max_message_bytes 1 1 1 = 0 ∧
    (List.replicate (max_message_bytes 1 1 1 + 4) 0).length =
      max_message_bytes 1 1 1 + 4 ∧
    encode_payload_into_image ⟨1, 1, [⟨0, 0, 0⟩]⟩
        (List.replicate (max_message_bytes 1 1 1 + 4) 0) 1 "sequential" =
      Except.error (StegoError.capacityExceeded 32 3) := by
  decide

/-- C3 (amended): for every image, bits ∈ {1,2,3} and supported method,
a framed payload of `capacity + 4` bytes (a message of exactly `capacity`
bytes) embeds successfully *provided the carrier has at least 32 bits*
(`3*w*h*bits ≥ 32`, true for all images the spec considers, w,h ≥ 8, but not
for degenerate ones); and a framed payload of `capacity + 5` bytes (a message
of `capacity + 1` bytes) always fails with CapacityExceeded carrying the
requested and available bit counts. -/
theorem capacity_boundary (img : Image) (bits : Nat) (method : String)
    (hbits : bits = 1 ∨ bits = 2 ∨ bits = 3) (hm : method ∈ SUPPORTED_METHODS)
    (payload payload' : List Nat)
    (hlen : payload.length = max_message_bytes img.width img.height bits + 4)
    (hlen' : payload'.length = max_message_bytes img.width img.height bits + 5) :
    (32 ≤ img.width * img.height * 3 * bits →
      ∃ out, encode_payload_into_image img payload bits method = Except.ok out) ∧
    encode_payload_into_image img payload' bits method =
      Except.error (StegoError.capacityExceeded (payload'.length * 8)
        (img.width * img.height * 3 * bits)) := by
  unfold encode_payload_into_image
  rw [validate_ok bits method hbits hm]
  simp only [max_message_bytes] at hlen hlen'
  constructor
  · intro hcap
    rw [if_neg (by omega)]
    exact ⟨_, rfl⟩
  · rw [if_pos (by omega)]

/-- Witness for C3 on an 8×8 image at bits = 1 (capacity 20): a 24-byte framed
payload embeds, a 25-byte one is rejected with counts 200 > 192. -/
theorem capacity_boundary_witness :
    ((1 : Nat) = 1 ∨ (1 : Nat) = 2 ∨ (1 : Nat) = 3) ∧
    "sequential" ∈ SUPPORTED_METHODS ∧
    (List.replicate 24 (65 : Nat)).length = max_message_bytes 8 8 1 + 4 ∧
    (List.replicate 25 (65 : Nat)).length = max_message_bytes 8 8 1 + 5 ∧
    ((32 ≤ 8 * 8 * 3 * 1 →
      ∃ out,
        encode_payload_into_image ⟨8, 8, List.replicate 64 ⟨9, 18, 27⟩⟩
          (List.replicate 24 65) 1 "sequential" = Except.ok out) ∧
     encode_payload_into_image ⟨8, 8, List.replicate 64 ⟨9, 18, 27⟩⟩
        (List.replicate 25 65) 1 "sequential" =
      Except.error (StegoError.capacityExceeded ((List.replicate 25 (65 : Nat)).length * 8)
        (8 * 8 * 3 * 1))) :=
  ⟨Or.inl rfl, by decide, by decide, by decide,
    capacity_boundary ⟨8, 8, List.replicate 64 ⟨9, 18, 27⟩⟩ 1 "sequential"
      (Or.inl rfl) (by decide) (List.replicate 24 65) (List.replicate 25 65)
      (by decide) (by decide)⟩

/-! ## Claim C9 — totality of the chi-square statistic on degenerate input -/

/-- C9 counterexample: on a zero-size image the code's
`expected = max(1.0, total/2.0)` floor makes
`chi2 = (0-1)²/1 + (0-1)²/1 = 2`, not the "neutral" 0 the claim states. -/
theorem chi_square_zero_size_counterexample :
    chi_square_lsb_test (some ⟨0, 0, []⟩) =
      ⟨2, 0, 0, false⟩ ∧ (2 : ℚ) ≠ 0 := by
  constructor
  · simp only [chi_square_lsb_test, List.countP_nil]
    norm_num
  · norm_num

/-- C9 (amended): the statistic is total by construction; `None` input yields
the all-zero record, and a degenerate (zero-size, hence pixel-free) image
yields zeroBits = oneBits = 0 and suspicious = false but chi2 = 2 (the
expectation is floored at 1), not 0. -/
theorem chi_square_degenerate (img : Image) (hempty : img.pixels = []) :
    chi_square_lsb_test none = ⟨0, 0, 0, false⟩ ∧
    chi_square_lsb_test (some img) = ⟨2, 0, 0, false⟩ := by
  refine ⟨rfl, ?_⟩
  simp only [chi_square_lsb_test, hempty, List.countP_nil]
  norm_num

/-- Witness for C9 on the concrete empty image. -/
theorem chi_square_degenerate_witness :
    (Image.mk 0 0 []).pixels = [] ∧
    (chi_square_lsb_test none = ⟨0, 0, 0, false⟩ ∧
     chi_square_lsb_test (some ⟨0, 0, []⟩) = ⟨2, 0, 0, false⟩) :=
  ⟨rfl, chi_square_degenerate ⟨0, 0, []⟩ rfl⟩

/-! ## Claim C5 — the risk-classification cascade -/

/-- C5: `evaluate_risk` clamps the usage ratio into `[0,1]` and then applies
the documented rules in order, first match winning: HIGH iff the clamped ratio
is ≥ 0.40 and (Δimbalance ≥ 0.02 or chiShift ≥ 0.20); otherwise MEDIUM iff
ratio ≥ 0.18, or ratio ≥ 0.08 with (Δimbalance ≥ 0.01 or chiShift ≥ 0.08), or
ratio ≥ 0.12 with suspicious embedded stats; otherwise LOW — with
Δimbalance = max(0, |z1-o1|/max(1,z1+o1) - |z0-o0|/max(1,z0+o0)) and
chiShift = |χ²₁-χ²₀|/max(|χ²₀|, 10⁻⁹).  In particular usage 0.40 with
Δimbalance exactly 0.02 is HIGH while usage 0.39999 with the same stats is
not. -/
theorem evaluate_risk_cascade :
    (∀ (usage_ratio : ℚ) (stats_orig stats_enc : RiskStats),
      (evaluate_risk usage_ratio stats_orig stats_enc = "HIGH" ↔
        max 0 (min 1 usage_ratio) ≥ 0.40 ∧
          (max 0
              (|(stats_enc.zero_bits : ℚ) - stats_enc.one_bits| /
                  max 1 ((stats_enc.zero_bits : ℚ) + stats_enc.one_bits) -
                |(stats_orig.zero_bits : ℚ) - stats_orig.one_bits| /
                  max 1 ((stats_orig.zero_bits : ℚ) + stats_orig.one_bits)) ≥ 0.02 ∨
            |stats_enc.chi2 - stats_orig.chi2| /
                max |stats_orig.chi2| (1 / 1000000000) ≥ 0.20)) ∧
      (evaluate_risk usage_ratio stats_orig stats_enc = "MEDIUM" ↔
        ¬(max 0 (min 1 usage_ratio) ≥ 0.40 ∧
          (max 0
              (|(stats_enc.zero_bits : ℚ) - stats_enc.one_bits| /
                  max 1 ((stats_enc.zero_bits : ℚ) + stats_enc.one_bits) -
                |(stats_orig.zero_bits : ℚ) - stats_orig.one_bits| /
                  max 1 ((stats_orig.zero_bits : ℚ) + stats_orig.one_bits)) ≥ 0.02 ∨
            |stats_enc.chi2 - stats_orig.chi2| /
                max |stats_orig.chi2| (1 / 1000000000) ≥ 0.20)) ∧
        (max 0 (min 1 usage_ratio) ≥ 0.18 ∨
          (max 0 (min 1 usage_ratio) ≥ 0.08 ∧
            (max 0
                (|(stats_enc.zero_bits : ℚ) - stats_enc.one_bits| /
                    max 1 ((stats_enc.zero_bits : ℚ) + stats_enc.one_bits) -
                  |(stats_orig.zero_bits : ℚ) - stats_orig.one_bits| /
                    max 1 ((stats_orig.zero_bits : ℚ) + stats_orig.one_bits)) ≥ 0.01 ∨
              |stats_enc.chi2 - stats_orig.chi2| /
                  max |stats_orig.chi2| (1 / 1000000000) ≥ 0.08)) ∨
          (max 0 (min 1 usage_ratio) ≥ 0.12 ∧ stats_enc.suspicious = true))) ∧
      (evaluate_risk usage_ratio stats_orig stats_enc = "LOW" ↔
        ¬(evaluate_risk usage_ratio stats_orig stats_enc = "HIGH") ∧
        ¬(evaluate_risk usage_ratio stats_orig stats_enc = "MEDIUM"))) ∧
    evaluate_risk 0.40 ⟨0, 50, 50, false⟩ ⟨0, 51, 49, false⟩ = "HIGH" ∧
    evaluate_risk 0.39999 ⟨0, 50, 50, false⟩ ⟨0, 51, 49, false⟩ ≠ "HIGH" := by
  refine ⟨fun usage_ratio stats_orig stats_enc => ?_, ?_, ?_⟩
  · simp only [evaluate_risk]
    split_ifs with h1 h2 <;> simp_all
  · norm_num [evaluate_risk]
  · norm_num [evaluate_risk]
    decide

/-! ## Lemmas: bit primitives and single-pixel updates -/

theorem testBit_set_bit_self (v i : Nat) : (set_bit v i).testBit i = true := by
  simp [set_bit, Nat.one_shiftLeft, Nat.testBit_or, Nat.testBit_two_pow_self]

theorem testBit_set_bit_ne (v : Nat) {i j : Nat} (h : j ≠ i) :
    (set_bit v i).testBit j = v.testBit j := by
  simp [set_bit, Nat.one_shiftLeft, Nat.testBit_or,
    Nat.testBit_two_pow_of_ne (Ne.symm h)]

theorem testBit_clear_bit_self (v i : Nat) : (clear_bit v i).testBit i = false := by
  unfold clear_bit
  by_cases h : v.testBit i
  · simp [h, Nat.testBit_xor, Nat.one_shiftLeft, Nat.testBit_two_pow_self]
  · simp [h]

theorem testBit_clear_bit_ne (v : Nat) {i j : Nat} (h : j ≠ i) :
    (clear_bit v i).testBit j = v.testBit j := by
  unfold clear_bit
  by_cases hv : v.testBit i
  · simp [hv, Nat.testBit_xor, Nat.one_shiftLeft,
      Nat.testBit_two_pow_of_ne (Ne.symm h)]
  · simp [hv]

theorem set_bit_lt_256 {v : Nat} (hv : v < 256) {i : Nat} (hi : i < 8) :
    set_bit v i < 256 := by
  have h1 : v < 2 ^ 8 := by omega
  have h2 : 1 <<< i < 2 ^ 8 := by
    rw [Nat.one_shiftLeft]
    exact Nat.pow_lt_pow_right (by norm_num) hi
  have := Nat.or_lt_two_pow h1 h2
  simpa [set_bit] using this

theorem clear_bit_lt_256 {v : Nat} (hv : v < 256) {i : Nat} (hi : i < 8) :
    clear_bit v i < 256 := by
  unfold clear_bit
  split
  · have h1 : v < 2 ^ 8 := by omega
    have h2 : 1 <<< i < 2 ^ 8 := by
      rw [Nat.one_shiftLeft]
      exact Nat.pow_lt_pow_right (by norm_num) hi
    have := Nat.xor_lt_two_pow h1 h2
    omega
  · exact hv

theorem set_bit_shiftRight {i b : Nat} (h : i < b) (v : Nat) :
    set_bit v i >>> b = v >>> b := by
  apply Nat.eq_of_testBit_eq
  intro j
  rw [Nat.testBit_shiftRight, Nat.testBit_shiftRight]
  exact testBit_set_bit_ne v (by omega)

theorem clear_bit_shiftRight {i b : Nat} (h : i < b) (v : Nat) :
    clear_bit v i >>> b = v >>> b := by
  apply Nat.eq_of_testBit_eq
  intro j
  rw [Nat.testBit_shiftRight, Nat.testBit_shiftRight]
  exact testBit_clear_bit_ne v (by omega)

theorem Pixel.get_set_self (px : Pixel) {ch : Nat} (h : ch < 3) (v : Nat) :
    (px.set ch v).get ch = v := by
  interval_cases ch <;> rfl

theorem Pixel.get_set_ne (px : Pixel) {ch ch' : Nat} (h : ch ≠ ch') (v : Nat) :
    (px.set ch' v).get ch = px.get ch := by
  rcases ch' with _ | _ | _ | n <;> rcases ch with _ | _ | _ | m <;>
    first
      | rfl
      | exact absurd rfl h

theorem Pixel.set_oob (px : Pixel) {ch : Nat} (h : 3 ≤ ch) (v : Nat) :
    px.set ch v = px := by
  rcases ch with _ | _ | _ | n
  · omega
  · omega
  · omega
  · rfl

theorem get_apply_bit_self (px : Pixel) {ch : Nat} (h : ch < 3) (bi : Nat) (b : Bool) :
    ((apply_bit px ch bi b).get ch).testBit bi = b := by
  unfold apply_bit
  cases b <;>
    simp [Pixel.get_set_self px h, testBit_set_bit_self, testBit_clear_bit_self]

theorem get_apply_bit_ne (px : Pixel) (ch bi ch' bi' : Nat) (b : Bool)
    (h : (ch', bi') ≠ (ch, bi)) :
    ((apply_bit px ch bi b).get ch').testBit bi' = (px.get ch').testBit bi' := by
  by_cases hch : ch' = ch
  · subst hch
    have hbi : bi' ≠ bi := fun hc => h (by rw [hc])
    by_cases h3 : ch' < 3
    · unfold apply_bit
      cases b <;>
        simp [Pixel.get_set_self px h3, testBit_set_bit_ne _ hbi,
          testBit_clear_bit_ne _ hbi]
    · unfold apply_bit
      cases b <;> simp [Pixel.set_oob px (show 3 ≤ ch' by omega)]
  · unfold apply_bit
    cases b <;> simp [Pixel.get_set_ne px hch]

/-! ## Lemmas: the per-pixel carrier walk -/

theorem pixel_bits_cons (p : Nat × Nat) (rest : List (Nat × Nat)) (px : Pixel) :
    pixel_bits (p :: rest) px = (px.get p.1).testBit p.2 :: pixel_bits rest px := rfl

theorem pixel_bits_length (order : List (Nat × Nat)) (px : Pixel) :
    (pixel_bits order px).length = order.length := by
  simp [pixel_bits]

theorem embed_pixel_nil_bits (order : List (Nat × Nat)) (px : Pixel) :
    embed_pixel order px [] = (px, []) := by
  cases order with
  | nil => rfl
  | cons p rest => rcases p with ⟨ch, bi⟩; rfl

theorem embed_pixel_snd (order : List (Nat × Nat)) (px : Pixel) (bs : List Bool) :
    (embed_pixel order px bs).2 = bs.drop order.length := by
  induction order generalizing px bs with
  | nil => rfl
  | cons p rest ih =>
    rcases p with ⟨ch, bi⟩
    cases bs with
    | nil => simp [embed_pixel]
    | cons b bs' => simpa [embed_pixel] using ih _ bs'

theorem embed_pixel_testBit_notMem (order : List (Nat × Nat)) (px : Pixel)
    (bs : List Bool) (ch bi : Nat) (h : (ch, bi) ∉ order) :
    (((embed_pixel order px bs).1).get ch).testBit bi = (px.get ch).testBit bi := by
  induction order generalizing px bs with
  | nil => rfl
  | cons p rest ih =>
    rcases p with ⟨ch', bi'⟩
    cases bs with
    | nil => rw [embed_pixel_nil_bits]
    | cons b bs' =>
      have h1 : (ch, bi) ∉ rest := fun hc => h (List.mem_cons_of_mem _ hc)
      have h2 : (ch, bi) ≠ (ch', bi') := fun hc => h (hc ▸ List.mem_cons_self _ _)
      show (((embed_pixel rest (apply_bit px ch' bi' b) bs').1).get ch).testBit bi = _
      rw [ih _ bs' h1, get_apply_bit_ne px ch' bi' ch bi b h2]

/-- Reading one pixel back after the inner carrier loop: the first
`min |bs| |order|` carrier positions hold the consumed payload bits, the rest
still hold the pixel's original bits. -/
theorem pixel_bits_embed_pixel (order : List (Nat × Nat)) (px : Pixel)
    (bs : List Bool) (hnd : order.Nodup) (hch : ∀ p ∈ order, p.1 < 3) :
    pixel_bits order (embed_pixel order px bs).1 =
      bs.take order.length ++
        (pixel_bits order px).drop (min bs.length order.length) := by
  induction order generalizing px bs with
  | nil => simp [pixel_bits, embed_pixel]
  | cons p rest ih =>
    rcases p with ⟨ch, bi⟩
    cases bs with
    | nil =>
      rw [embed_pixel_nil_bits]
      simp
    | cons b bs' =>
      have hnd' : rest.Nodup := hnd.of_cons
      have hmem : (ch, bi) ∉ rest := (List.nodup_cons.mp hnd).1
      have hch3 : ch < 3 := hch (ch, bi) (List.mem_cons_self _ _)
      have hch' : ∀ p ∈ rest, p.1 < 3 := fun p hp => hch p (List.mem_cons_of_mem _ hp)
      have hhead :
          (((embed_pixel rest (apply_bit px ch bi b) bs').1).get ch).testBit bi = b := by
        rw [embed_pixel_testBit_notMem rest _ bs' ch bi hmem]
        exact get_apply_bit_self px hch3 bi b
      have hpres : pixel_bits rest (apply_bit px ch bi b) = pixel_bits rest px := by
        unfold pixel_bits
        refine List.map_congr_left fun q hq => ?_
        exact get_apply_bit_ne px ch bi q.1 q.2 b (fun hc => hmem (hc ▸ hq))
      show pixel_bits ((ch, bi) :: rest) (embed_pixel rest (apply_bit px ch bi b) bs').1 = _
      rw [pixel_bits_cons, hhead, ih _ bs' hnd' hch', hpres, pixel_bits_cons,
        List.length_cons, List.length_cons, Nat.succ_min_succ, List.take_succ_cons,
        List.drop_succ_cons, List.cons_append]

/-! ## Lemmas: the whole-image carrier walk -/

theorem embed_pixels_nil_bits (order : List (Nat × Nat)) (pixels : List Pixel) :
    embed_pixels order pixels [] = pixels := by
  cases pixels with
  | nil => rfl
  | cons px rest => simp [embed_pixels, embed_pixel_nil_bits]

theorem embed_pixels_length (order : List (Nat × Nat)) (pixels : List Pixel)
    (bs : List Bool) : (embed_pixels order pixels bs).length = pixels.length := by
  induction pixels generalizing bs with
  | nil => rfl
  | cons px rest ih =>
    show (let step := embed_pixel order px bs
      step.1 :: (if step.2.isEmpty then rest else embed_pixels order rest step.2)).length
      = rest.length + 1
    by_cases h : (embed_pixel order px bs).2.isEmpty <;> simp [h, ih]

theorem length_flatMap_pixel_bits (order : List (Nat × Nat)) (pixels : List Pixel) :
    (pixels.flatMap (pixel_bits order)).length = pixels.length * order.length := by
  induction pixels with
  | nil => simp
  | cons px rest ih =>
    simp only [List.flatMap_cons, List.length_append, pixel_bits_length, ih,
      List.length_cons]
    ring

/-- Reading the whole carrier back after embedding: the first `|bs|` carrier
bits are the payload bits, the rest are the original image's bits. -/
theorem flatMap_pixel_bits_embed_pixels (order : List (Nat × Nat))
    (hnd : order.Nodup) (hch : ∀ p ∈ order, p.1 < 3)
    (pixels : List Pixel) (bs : List Bool)
    (hlen : bs.length ≤ pixels.length * order.length) :
    (embed_pixels order pixels bs).flatMap (pixel_bits order) =
      bs ++ (pixels.flatMap (pixel_bits order)).drop bs.length := by
  induction pixels generalizing bs with
  | nil =>
    have hbs : bs = [] := by simpa using hlen
    subst hbs
    rfl
  | cons px rest ih =>
    have hsnd := embed_pixel_snd order px bs
    have hfst := pixel_bits_embed_pixel order px bs hnd hch
    have hplen := pixel_bits_length order px
    show (let step := embed_pixel order px bs
      step.1 :: (if step.2.isEmpty then rest else embed_pixels order rest step.2)).flatMap
        (pixel_bits order) = _
    by_cases hle : bs.length ≤ order.length
    · have hempty : (embed_pixel order px bs).2.isEmpty = true := by
        rw [hsnd, List.isEmpty_iff]
        exact List.drop_eq_nil_of_le hle
      simp only [hempty, if_true, List.flatMap_cons, hfst]
      rw [List.take_of_length_le hle, min_eq_left hle,
        List.drop_append_of_le_length (by omega), List.append_assoc]
    · have hne : ¬(bs.drop order.length).isEmpty = true := by
        rw [List.isEmpty_iff]
        intro hc
        have := List.drop_eq_nil_iff.mp hc
        omega
      simp only [List.flatMap_cons, hfst, hsnd, if_neg hne]
      have hrest : (bs.drop order.length).length ≤ rest.length * order.length := by
        simp only [List.length_drop]
        simp only [List.length_cons] at hlen
        have : (rest.length + 1) * order.length
            = rest.length * order.length + order.length := by ring
        omega
      have hdrop : (pixel_bits order px ++ rest.flatMap (pixel_bits order)).drop
          bs.length = (rest.flatMap (pixel_bits order)).drop
            (bs.length - order.length) := by
        conv_lhs =>
          rw [show bs.length = (pixel_bits order px).length
            + (bs.length - order.length) by omega]
        rw [List.drop_append]
      rw [ih (bs.drop order.length) hrest, min_eq_right (by omega),
        List.drop_eq_nil_of_le (le_of_eq hplen), hdrop, List.length_drop,
        List.append_nil, ← List.append_assoc, List.take_append_drop]

/-! ## Lemmas: properties of the carrier order -/

theorem method_cases {method : String} (hm : method ∈ SUPPORTED_METHODS) :
    method = "sequential" ∨ method = "interleaved" := by
  simpa [SUPPORTED_METHODS] using hm

theorem carrier_pairs_bounds (bits : Nat) {method : String}
    (hm : method ∈ SUPPORTED_METHODS) (p : Nat × Nat)
    (hp : p ∈ carrier_pairs bits method) : p.1 < 3 ∧ p.2 < bits := by
  rcases p with ⟨c, b⟩
  rcases method_cases hm with rfl | rfl
  · exact (mem_carrier_pairs_sequential bits c b).mp hp
  · exact (mem_carrier_pairs_interleaved bits c b).mp hp

theorem carrier_pairs_nodup {bits : Nat} {method : String}
    (hbits : bits = 1 ∨ bits = 2 ∨ bits = 3) (hm : method ∈ SUPPORTED_METHODS) :
    (carrier_pairs bits method).Nodup := by
  rcases method_cases hm with rfl | rfl <;> rcases hbits with rfl | rfl | rfl <;> decide

theorem carrier_pairs_length (bits : Nat) (method : String) :
    (carrier_pairs bits method).length = 3 * bits := by
  unfold carrier_pairs
  split <;>
    (simp [List.length_flatMap, Function.comp_def, List.map_const',
      List.sum_replicate, smul_eq_mul, mul_comm]
     try ring)

theorem image_bits_length (img : Image) (bits : Nat) (method : String) :
    (image_bits img bits method).length = img.pixels.length * (3 * bits) := by
  unfold image_bits
  rw [length_flatMap_pixel_bits, carrier_pairs_length]

/-! ## Lemmas: byte/bit conversions -/

theorem byte_bits_length (byte : Nat) : (byte_bits byte).length = 8 := rfl

theorem bytes_to_bits_cons (d : Nat) (rest : List Nat) :
    bytes_to_bits (d :: rest) = byte_bits d ++ bytes_to_bits rest := rfl

theorem bytes_to_bits_append (a b : List Nat) :
    bytes_to_bits (a ++ b) = bytes_to_bits a ++ bytes_to_bits b := by
  simp [bytes_to_bits]

theorem bytes_to_bits_length (data : List Nat) :
    (bytes_to_bits data).length = 8 * data.length := by
  induction data with
  | nil => rfl
  | cons d rest ih =>
    rw [bytes_to_bits_cons, List.length_append, byte_bits_length, ih,
      List.length_cons]
    ring

theorem bits_to_nat_foldl (bs : List Bool) (acc : Nat) :
    bs.foldl (fun value bit => 2 * value + (if bit then 1 else 0)) acc
      = acc * 2 ^ bs.length + bits_to_nat bs := by
  induction bs generalizing acc with
  | nil => simp [bits_to_nat]
  | cons b rest ih =>
    simp only [bits_to_nat, List.foldl_cons, List.length_cons]
    rw [ih, ih (2 * 0 + if b then 1 else 0)]
    ring

theorem bits_to_nat_lt (bs : List Bool) : bits_to_nat bs < 2 ^ bs.length := by
  induction bs with
  | nil => norm_num [bits_to_nat]
  | cons b rest ih =>
    have h : bits_to_nat (b :: rest)
        = (2 * 0 + if b then 1 else 0) * 2 ^ rest.length + bits_to_nat rest := by
      simp only [bits_to_nat, List.foldl_cons]
      exact bits_to_nat_foldl rest _
    rw [h, List.length_cons, pow_succ]
    cases b <;> simp <;> omega

set_option maxRecDepth 40000 in
theorem bits_to_nat_byte_bits : ∀ b < 256, bits_to_nat (byte_bits b) = b := by
  decide

theorem foldl_byte_bits {b : Nat} (hb : b < 256) (acc : Nat) :
    (byte_bits b).foldl (fun value bit => 2 * value + (if bit then 1 else 0)) acc
      = acc * 256 + b := by
  rw [bits_to_nat_foldl, byte_bits_length, bits_to_nat_byte_bits b hb]
  norm_num

theorem foldl_bytes_to_bits (data : List Nat) (h : ∀ d ∈ data, d < 256) (acc : Nat) :
    (bytes_to_bits data).foldl (fun value bit => 2 * value + (if bit then 1 else 0)) acc
      = data.foldl (fun a b => a * 256 + b) acc := by
  induction data generalizing acc with
  | nil => rfl
  | cons d rest ih =>
    rw [bytes_to_bits_cons, List.foldl_append, List.foldl_cons,
      foldl_byte_bits (h d (List.mem_cons_self _ _)),
      ih (fun x hx => h x (List.mem_cons_of_mem _ hx))]

theorem bits_to_nat_bytes_to_bits (data : List Nat) (h : ∀ d ∈ data, d < 256) :
    bits_to_nat (bytes_to_bits data) = from_bytes_be data :=
  foldl_bytes_to_bits data h 0

theorem from_bytes_to_bytes_4 {n : Nat} (h : n < 2 ^ 32) :
    from_bytes_be (to_bytes_4_be n) = n := by
  simp only [from_bytes_be, to_bytes_4_be, List.foldl_cons, List.foldl_nil]
  omega

theorem to_bytes_4_be_lt (n : Nat) : ∀ d ∈ to_bytes_4_be n, d < 256 := by
  simp only [to_bytes_4_be, List.mem_cons]
  rintro d (rfl | rfl | rfl | rfl | h)
  · exact Nat.mod_lt _ (by norm_num)
  · exact Nat.mod_lt _ (by norm_num)
  · exact Nat.mod_lt _ (by norm_num)
  · exact Nat.mod_lt _ (by norm_num)
  · cases h

theorem to_bytes_4_be_length (n : Nat) : (to_bytes_4_be n).length = 4 := rfl

theorem bits_to_bytes_cons_byte (b : Nat) (rest : List Bool) :
    bits_to_bytes (byte_bits b ++ rest)
      = bits_to_nat (byte_bits b) :: bits_to_bytes rest := by
  rw [bits_to_bytes]
  rw [dif_pos (by simp [byte_bits])]
  have ht : (byte_bits b ++ rest).take 8 = byte_bits b := by
    have := List.take_left (byte_bits b) rest
    rwa [byte_bits_length] at this
  have hd : (byte_bits b ++ rest).drop 8 = rest := by
    have := List.drop_left (byte_bits b) rest
    rwa [byte_bits_length] at this
  rw [ht, hd]

theorem bits_to_bytes_bytes_to_bits (data : List Nat) (h : ∀ d ∈ data, d < 256) :
    bits_to_bytes (bytes_to_bits data) = data := by
  induction data with
  | nil =>
    rw [show bytes_to_bits [] = [] from rfl, bits_to_bytes]
    norm_num
  | cons d rest ih =>
    rw [bytes_to_bits_cons, bits_to_bytes_cons_byte,
      bits_to_nat_byte_bits d (h d (List.mem_cons_self _ _)),
      ih (fun x hx => h x (List.mem_cons_of_mem _ hx))]

/-! ## Lemmas: the XOR mask -/

theorem xor_mask_length (pw : List Nat) (i : Nat) (data : List Nat) :
    (xor_mask pw i data).length = data.length := by
  induction data generalizing i with
  | nil => rfl
  | cons d rest ih => simp [xor_mask, ih]

theorem xor_with_password_length (data pw : List Nat) :
    (xor_with_password data pw).length = data.length := by
  unfold xor_with_password
  split
  · rfl
  · exact xor_mask_length pw 0 data

theorem xor_mask_involutive (pw : List Nat) (i : Nat) (data : List Nat) :
    xor_mask pw i (xor_mask pw i data) = data := by
  induction data generalizing i with
  | nil => rfl
  | cons d rest ih => simp [xor_mask, Nat.xor_cancel_right, ih]

theorem xor_with_password_involutive (data pw : List Nat) :
    xor_with_password (xor_with_password data pw) pw = data := by
  unfold xor_with_password
  split
  · rfl
  · exact xor_mask_involutive pw 0 data

theorem getD_lt_256 {pw : List Nat} (hpw : ∀ k ∈ pw, k < 256) (n : Nat) :
    pw.getD n 0 < 256 := by
  by_cases h : n < pw.length
  · rw [List.getD_eq_getElem pw 0 h]
    exact hpw _ (List.getElem_mem h)
  · rw [List.getD_eq_default pw 0 (by omega)]
    norm_num

theorem xor_mask_lt (pw : List Nat) (hpw : ∀ k ∈ pw, k < 256) (i : Nat)
    (data : List Nat) (hdata : ∀ d ∈ data, d < 256) :
    ∀ x ∈ xor_mask pw i data, x < 256 := by
  induction data generalizing i with
  | nil => simp [xor_mask]
  | cons d rest ih =>
    intro x hx
    simp only [xor_mask, List.mem_cons] at hx
    rcases hx with rfl | hx
    · have h1 : d < 2 ^ 8 := by
        have := hdata d (List.mem_cons_self _ _)
        omega
      have h2 : pw.getD (i % pw.length) 0 < 2 ^ 8 := by
        have := getD_lt_256 hpw (i % pw.length)
        omega
      have := Nat.xor_lt_two_pow h1 h2
      omega
    · exact ih (i + 1) (fun y hy => hdata y (List.mem_cons_of_mem _ hy)) x hx

theorem xor_with_password_lt (data pw : List Nat) (hdata : ∀ d ∈ data, d < 256)
    (hpw : ∀ k ∈ pw, k < 256) :
    ∀ x ∈ xor_with_password data pw, x < 256 := by
  unfold xor_with_password
  split
  · exact hdata
  · exact xor_mask_lt pw hpw 0 data hdata

/-! ## Claim C6 — extraction error taxonomy -/

theorem decode_payload_from_image_eq (img : Image) (bits : Nat) (method : String)
    (h : validate_bits_and_method bits method = Except.ok ()) :
    decode_payload_from_image img bits method =
      if (image_bits img bits method).length < 32 then
        Except.error StegoError.missingHeader
      else if bits_to_nat ((image_bits img bits method).take 32) >
          max_message_bytes img.width img.height bits then
        Except.error StegoError.invalidLength
      else if ((image_bits img bits method).drop 32).length <
          bits_to_nat ((image_bits img bits method).take 32) * 8 then
        Except.error StegoError.incompletePayload
      else
        Except.ok (to_bytes_4_be (bits_to_nat ((image_bits img bits method).take 32)) ++
          bits_to_bytes (((image_bits img bits method).drop 32).take
            (bits_to_nat ((image_bits img bits method).take 32) * 8))) := by
  unfold decode_payload_from_image
  rw [h]

/-- C6: extraction fails with MissingHeader exactly when the image offers
fewer than 32 carrier positions; otherwise it reads the first 32 bits as a
big-endian length and fails with InvalidLength exactly when that length
exceeds the capacity; otherwise it reads exactly `declaredLength*8` further
bits — and because a valid declared length always fits
(`8*capacity + 32 ≤ 3*w*h*bits`), the IncompletePayload exhaustion case can in
fact never fire, so the conditional "fails IncompletePayload if exhausted"
holds vacuously and the function returns the header plus exactly those bits.
Extraction is a pure function of the image (the model has no mutation; the
source only ever reads `pixels[x, y]`). -/
theorem decode_error_taxonomy (img : Image) (hwf : img.wf)
    (bits : Nat) (method : String)
    (hbits : bits = 1 ∨ bits = 2 ∨ bits = 3) (hm : method ∈ SUPPORTED_METHODS) :
    (decode_payload_from_image img bits method
        = Except.error StegoError.missingHeader ↔
      img.width * img.height * 3 * bits < 32) ∧
    (decode_payload_from_image img bits method
        = Except.error StegoError.invalidLength ↔
      32 ≤ img.width * img.height * 3 * bits ∧
        bits_to_nat ((image_bits img bits method).take 32) >
          max_message_bytes img.width img.height bits) ∧
    decode_payload_from_image img bits method
        ≠ Except.error StegoError.incompletePayload ∧
    (32 ≤ img.width * img.height * 3 * bits →
      bits_to_nat ((image_bits img bits method).take 32) ≤
        max_message_bytes img.width img.height bits →
      decode_payload_from_image img bits method =
        Except.ok (to_bytes_4_be (bits_to_nat ((image_bits img bits method).take 32)) ++
          bits_to_bytes (((image_bits img bits method).drop 32).take
            (bits_to_nat ((image_bits img bits method).take 32) * 8)))) := by
  have hv := validate_ok bits method hbits hm
  have hbl : (image_bits img bits method).length
      = img.width * img.height * 3 * bits := by
    rw [image_bits_length, hwf.1]
    ring
  rw [decode_payload_from_image_eq img bits method hv]
  simp only [max_message_bytes] at *
  split_ifs with h1 h2 h3
  · refine ⟨iff_of_true rfl (by omega), iff_of_false (by simp) (by omega), by simp, ?_⟩
    intro hc
    omega
  · refine ⟨iff_of_false (by simp) (by omega), iff_of_true rfl ⟨by omega, h2⟩, by simp, ?_⟩
    intro _ hc
    omega
  · exfalso
    rw [List.length_drop, hbl] at h3
    omega
  · refine ⟨iff_of_false (by simp) (by omega), iff_of_false (by simp) (by omega),
      by simp, fun _ _ => rfl⟩

/-- Witness for C6 on two concrete images: a 1×1 image (3 carrier bits) fails
with MissingHeader; the all-255 8×8 image declares length 2³²−1 > capacity and
fails with InvalidLength. -/
theorem decode_error_taxonomy_witness :
    (Image.mk 1 1 [⟨0, 0, 0⟩]).wf ∧
    decode_payload_from_image ⟨1, 1, [⟨0, 0, 0⟩]⟩ 1 "sequential"
      = Except.error StegoError.missingHeader ∧
    (Image.mk 8 8 (List.replicate 64 ⟨255, 255, 255⟩)).wf ∧
    decode_payload_from_image ⟨8, 8, List.replicate 64 ⟨255, 255, 255⟩⟩ 1 "sequential"
      = Except.error StegoError.invalidLength :=
  ⟨by decide,
   (decode_error_taxonomy ⟨1, 1, [⟨0, 0, 0⟩]⟩ (by decide) 1 "sequential"
      (Or.inl rfl) (by decide)).1.mpr (by decide),
   by decide,
   (decode_error_taxonomy ⟨8, 8, List.replicate 64 ⟨255, 255, 255⟩⟩ (by decide) 1
      "sequential" (Or.inl rfl) (by decide)).2.1.mpr (by decide)⟩

/-! ## Claim C8 — embedding's frame effect -/

theorem embed_pixels_drop_of_le (order : List (Nat × Nat)) (pixels : List Pixel)
    (bs : List Bool) (k : Nat) (hk : bs.length ≤ k * order.length) :
    (embed_pixels order pixels bs).drop k = pixels.drop k := by
  induction pixels generalizing bs k with
  | nil => simp [embed_pixels]
  | cons px rest ih =>
    by_cases hbs : bs = []
    · subst hbs
      rw [embed_pixels_nil_bits]
    · rcases k with _ | k'
      · exfalso
        simp only [Nat.zero_mul, Nat.le_zero, List.length_eq_zero] at hk
        exact hbs hk
      · simp only [embed_pixels]
        rw [List.drop_succ_cons, List.drop_succ_cons]
        have hsnd := embed_pixel_snd order px bs
        by_cases hemp : (embed_pixel order px bs).2.isEmpty
        · simp [hemp]
        · simp only [hemp, if_false]
          rw [hsnd]
          apply ih
          rw [List.length_drop]
          rw [Nat.succ_mul] at hk
          omega

/-- `n ≤ ⌈n/d⌉ * d`, with the ceiling written as the code's callers would:
`(n + d - 1) / d`. -/
theorem le_ceil_mul (n d : Nat) (hd : 0 < d) : n ≤ (n + d - 1) / d * d := by
  have h1 := Nat.div_add_mod' (n + d - 1) d
  have h2 : (n + d - 1) % d < d := Nat.mod_lt _ hd
  omega

/-- C8: embedding never mutates its input (the model is pure — the source
writes only into `image.copy()`), the output has the input's width and height
and exactly as many pixels, and writing stops with the pixel that receives the
final payload bit: with `touched = ⌈8·|payload| / (3·bits)⌉`, every pixel from
index `touched` on equals the corresponding input pixel. -/
theorem encode_frame_effect (img : Image) (payload : List Nat) (bits : Nat)
    (method : String) (hbits : bits = 1 ∨ bits = 2 ∨ bits = 3)
    (hm : method ∈ SUPPORTED_METHODS)
    (out : Image)
    (henc : encode_payload_into_image img payload bits method = Except.ok out) :
    out.width = img.width ∧ out.height = img.height ∧
    out.pixels.length = img.pixels.length ∧
    out.pixels.drop ((payload.length * 8 + (3 * bits) - 1) / (3 * bits)) =
      img.pixels.drop ((payload.length * 8 + (3 * bits) - 1) / (3 * bits)) := by
  unfold encode_payload_into_image at henc
  rw [validate_ok bits method hbits hm] at henc
  by_cases hcap : payload.length * 8 > img.width * img.height * 3 * bits
  · rw [if_pos hcap] at henc
    cases henc
  · rw [if_neg hcap] at henc
    injection henc with h
    subst h
    refine ⟨rfl, rfl, embed_pixels_length _ _ _, ?_⟩
    apply embed_pixels_drop_of_le
    rw [bytes_to_bits_length, carrier_pairs_length]
    have := le_ceil_mul (payload.length * 8) (3 * bits) (by omega)
    omega

/-- Witness for C8: a 4-byte payload on an 8×8 image at bits = 1 touches
⌈32/3⌉ = 11 pixels; the rest of the buffer is the untouched copy. -/
theorem encode_frame_effect_witness :
    ((1 : Nat) = 1 ∨ (1 : Nat) = 2 ∨ (1 : Nat) = 3) ∧
    "sequential" ∈ SUPPORTED_METHODS ∧
    encode_payload_into_image ⟨8, 8, List.replicate 64 ⟨9, 18, 27⟩⟩ [0, 0, 0, 1] 1
        "sequential" =
      Except.ok ⟨8, 8, embed_pixels (carrier_pairs 1 "sequential")
        (List.replicate 64 ⟨9, 18, 27⟩) (bytes_to_bits [0, 0, 0, 1])⟩ ∧
    ((⟨8, 8, embed_pixels (carrier_pairs 1 "sequential")
        (List.replicate 64 ⟨9, 18, 27⟩) (bytes_to_bits [0, 0, 0, 1])⟩ : Image).width = 8 ∧
     (⟨8, 8, embed_pixels (carrier_pairs 1 "sequential")
        (List.replicate 64 ⟨9, 18, 27⟩) (bytes_to_bits [0, 0, 0, 1])⟩ : Image).height = 8 ∧
     (embed_pixels (carrier_pairs 1 "sequential")
        (List.replicate 64 ⟨9, 18, 27⟩) (bytes_to_bits [0, 0, 0, 1])).length =
       (List.replicate 64 (Pixel.mk 9 18 27)).length ∧
     (embed_pixels (carrier_pairs 1 "sequential")
        (List.replicate 64 ⟨9, 18, 27⟩) (bytes_to_bits [0, 0, 0, 1])).drop
          ((([0, 0, 0, 1] : List Nat).length * 8 + 3 * 1 - 1) / (3 * 1)) =
       (List.replicate 64 (Pixel.mk 9 18 27)).drop
          ((([0, 0, 0, 1] : List Nat).length * 8 + 3 * 1 - 1) / (3 * 1))) :=
  ⟨Or.inl rfl, by decide, by decide,
    encode_frame_effect ⟨8, 8, List.replicate 64 ⟨9, 18, 27⟩⟩ [0, 0, 0, 1] 1
      "sequential" (Or.inl rfl) (by decide) _ (by decide)⟩

/-! ## Claim C10 — only the low `bits` bits of each channel change -/

theorem apply_bit_shiftRight {bi bits : Nat} (h : bi < bits) (px : Pixel)
    (ch c : Nat) (b : Bool) :
    (apply_bit px ch bi b).get c >>> bits = px.get c >>> bits := by
  cases b
  · show (px.set ch (clear_bit (px.get ch) bi)).get c >>> bits = _
    by_cases hc : c = ch
    · subst hc
      by_cases h3 : c < 3
      · rw [Pixel.get_set_self px h3]
        exact clear_bit_shiftRight h _
      · rw [Pixel.set_oob px (by omega)]
    · rw [Pixel.get_set_ne px hc]
  · show (px.set ch (set_bit (px.get ch) bi)).get c >>> bits = _
    by_cases hc : c = ch
    · subst hc
      by_cases h3 : c < 3
      · rw [Pixel.get_set_self px h3]
        exact set_bit_shiftRight h _
      · rw [Pixel.set_oob px (by omega)]
    · rw [Pixel.get_set_ne px hc]

theorem apply_bit_lt_256 {bi : Nat} (hbi : bi < 8) (px : Pixel) (ch c : Nat)
    (b : Bool) (hc : px.get c < 256) : (apply_bit px ch bi b).get c < 256 := by
  cases b
  · show (px.set ch (clear_bit (px.get ch) bi)).get c < 256
    by_cases hcc : c = ch
    · subst hcc
      by_cases h3 : c < 3
      · rw [Pixel.get_set_self px h3]
        exact clear_bit_lt_256 hc hbi
      · rw [Pixel.set_oob px (by omega)]
        exact hc
    · rw [Pixel.get_set_ne px hcc]
      exact hc
  · show (px.set ch (set_bit (px.get ch) bi)).get c < 256
    by_cases hcc : c = ch
    · subst hcc
      by_cases h3 : c < 3
      · rw [Pixel.get_set_self px h3]
        exact set_bit_lt_256 hc hbi
      · rw [Pixel.set_oob px (by omega)]
        exact hc
    · rw [Pixel.get_set_ne px hcc]
      exact hc

theorem embed_pixel_high_bits (order : List (Nat × Nat)) {bits : Nat}
    (hbi : ∀ p ∈ order, p.2 < bits) (hb8 : bits ≤ 8) (px : Pixel)
    (bs : List Bool) (c : Nat) :
    (embed_pixel order px bs).1.get c >>> bits = px.get c >>> bits ∧
    (px.get c < 256 → (embed_pixel order px bs).1.get c < 256) := by
  induction order generalizing px bs with
  | nil => exact ⟨rfl, fun h => h⟩
  | cons p rest ih =>
    rcases p with ⟨ch, bi⟩
    cases bs with
    | nil =>
      rw [embed_pixel_nil_bits]
      exact ⟨rfl, fun h => h⟩
    | cons b bs' =>
      have h1 : bi < bits := hbi _ (List.mem_cons_self _ _)
      have h2 : ∀ q ∈ rest, q.2 < bits := fun q hq => hbi q (List.mem_cons_of_mem _ hq)
      have hrec := ih h2 (apply_bit px ch bi b) bs'
      constructor
      · show (embed_pixel rest (apply_bit px ch bi b) bs').1.get c >>> bits = _
        rw [hrec.1, apply_bit_shiftRight h1 px ch c b]
      · intro hlt
        show (embed_pixel rest (apply_bit px ch bi b) bs').1.get c < 256
        exact hrec.2 (apply_bit_lt_256 (by omega) px ch c b hlt)

theorem embed_pixels_high_bits (order : List (Nat × Nat)) {bits : Nat}
    (hbi : ∀ p ∈ order, p.2 < bits) (hb8 : bits ≤ 8)
    (pixels : List Pixel) (bs : List Bool) (i c : Nat) :
    ((embed_pixels order pixels bs).getD i ⟨0, 0, 0⟩).get c >>> bits
        = (pixels.getD i ⟨0, 0, 0⟩).get c >>> bits ∧
    ((pixels.getD i ⟨0, 0, 0⟩).get c < 256 →
      ((embed_pixels order pixels bs).getD i ⟨0, 0, 0⟩).get c < 256) := by
  induction pixels generalizing bs i with
  | nil => exact ⟨rfl, fun h => h⟩
  | cons px rest ih =>
    simp only [embed_pixels]
    by_cases hemp : (embed_pixel order px bs).2.isEmpty
    · rcases i with _ | i'
      · simp only [hemp, if_true, List.getD_cons_zero]
        exact embed_pixel_high_bits order hbi hb8 px bs c
      · simp [hemp]
    · rcases i with _ | i'
      · simp only [hemp, if_false, List.getD_cons_zero]
        exact embed_pixel_high_bits order hbi hb8 px bs c
      · simp only [hemp, if_false, List.getD_cons_succ]
        exact ih _ i'

/-- C10: a successful embed only rewrites the low `bits` bits of each channel:
for every pixel index and channel, `out >> bits = in >> bits`, and every output
channel stays an 8-bit value.  (Out-of-range indices compare the shared default
pixel, so the statement is unconditional in `i`.) -/
theorem embed_only_low_bits (img : Image) (hwf : img.wf) (payload : List Nat)
    (bits : Nat) (method : String) (hbits : bits = 1 ∨ bits = 2 ∨ bits = 3)
    (hm : method ∈ SUPPORTED_METHODS) (out : Image)
    (henc : encode_payload_into_image img payload bits method = Except.ok out) :
    ∀ i c, c < 3 →
      (out.pixels.getD i ⟨0, 0, 0⟩).get c >>> bits
          = (img.pixels.getD i ⟨0, 0, 0⟩).get c >>> bits ∧
      (out.pixels.getD i ⟨0, 0, 0⟩).get c < 256 := by
  unfold encode_payload_into_image at henc
  rw [validate_ok bits method hbits hm] at henc
  by_cases hcap : payload.length * 8 > img.width * img.height * 3 * bits
  · rw [if_pos hcap] at henc
    cases henc
  · rw [if_neg hcap] at henc
    injection henc with h
    subst h
    intro i c hc
    have hbi : ∀ p ∈ carrier_pairs bits method, p.2 < bits :=
      fun p hp => (carrier_pairs_bounds bits hm p hp).2
    have hhb := embed_pixels_high_bits (carrier_pairs bits method) hbi (by omega)
      img.pixels (bytes_to_bits payload) i c
    refine ⟨hhb.1, hhb.2 ?_⟩
    by_cases hi : i < img.pixels.length
    · have hmem : img.pixels.getD i ⟨0, 0, 0⟩ ∈ img.pixels := by
        rw [List.getD_eq_getElem _ _ hi]
        exact List.getElem_mem hi
      have hb := hwf.2 _ hmem
      interval_cases c
      · exact hb.1
      · exact hb.2.1
      · exact hb.2.2
    · rw [List.getD_eq_default _ _ (by omega)]
      interval_cases c <;> norm_num [Pixel.get]

/-- Witness for C10 on an 8×8 image, a 4-byte payload, bits = 2, interleaved,
evaluated at pixel 0, channel 0. -/
theorem embed_only_low_bits_witness :
    (Image.mk 8 8 (List.replicate 64 ⟨9, 18, 27⟩)).wf ∧
    ((embed_pixels (carrier_pairs 2 "interleaved") (List.replicate 64 ⟨9, 18, 27⟩)
        (bytes_to_bits [7, 0, 255, 1])).getD 0 ⟨0, 0, 0⟩).get 0 >>> 2
      = (((List.replicate 64 (Pixel.mk 9 18 27)).getD 0 ⟨0, 0, 0⟩).get 0) >>> 2 ∧
    ((embed_pixels (carrier_pairs 2 "interleaved") (List.replicate 64 ⟨9, 18, 27⟩)
        (bytes_to_bits [7, 0, 255, 1])).getD 0 ⟨0, 0, 0⟩).get 0 < 256 :=
  ⟨by decide,
    (embed_only_low_bits ⟨8, 8, List.replicate 64 ⟨9, 18, 27⟩⟩ (by decide)
      [7, 0, 255, 1] 2 "interleaved" (Or.inr (Or.inl rfl)) (by decide)
      ⟨8, 8, embed_pixels (carrier_pairs 2 "interleaved")
        (List.replicate 64 ⟨9, 18, 27⟩) (bytes_to_bits [7, 0, 255, 1])⟩
      (by decide) 0 0 (by decide)).1,
    (embed_only_low_bits ⟨8, 8, List.replicate 64 ⟨9, 18, 27⟩⟩ (by decide)
      [7, 0, 255, 1] 2 "interleaved" (Or.inr (Or.inl rfl)) (by decide)
      ⟨8, 8, embed_pixels (carrier_pairs 2 "interleaved")
        (List.replicate 64 ⟨9, 18, 27⟩) (bytes_to_bits [7, 0, 255, 1])⟩
      (by decide) 0 0 (by decide)).2⟩

/-! ## Claim C1 — the embed/extract round trip -/

/-- C1 (amended): for every well-formed RGB image with `w, h ≥ 8`, every
`bits ∈ {1,2,3}`, either method, every password and every message (modelled by
its UTF-8 bytes) whose byte length fits the capacity *and is below 2³²* (so
the 4-byte length header can represent it — beyond that Python's
`to_bytes(4, "big")` raises `OverflowError` and no image is produced),
decoding the encoded image returns exactly the original message bytes. -/
theorem text_roundtrip (img : Image) (hwf : img.wf)
    (hw : 8 ≤ img.width) (hh : 8 ≤ img.height)
    (bits : Nat) (method : String)
    (hbits : bits = 1 ∨ bits = 2 ∨ bits = 3) (hm : method ∈ SUPPORTED_METHODS)
    (message password : List Nat)
    (hmsg : ∀ d ∈ message, d < 256) (hpw : ∀ k ∈ password, k < 256)
    (hcap : message.length ≤ max_message_bytes img.width img.height bits)
    (h32 : message.length < 2 ^ 32) :
    encode_then_decode_text img message password bits method
      = Except.ok message := by
  set masked := xor_with_password message password with hmasked
  have hmlen : masked.length = message.length := xor_with_password_length _ _
  have hmb : ∀ d ∈ masked, d < 256 := xor_with_password_lt message password hmsg hpw
  have hT : 192 ≤ img.width * img.height * 3 * bits := by
    have h1 : 8 * 8 ≤ img.width * img.height := Nat.mul_le_mul hw hh
    have h2 : 8 * 8 * 3 ≤ img.width * img.height * 3 := Nat.mul_le_mul_right 3 h1
    have h3 : 8 * 8 * 3 * 1 ≤ img.width * img.height * 3 * bits :=
      Nat.mul_le_mul h2 (by omega)
    omega
  have hcap8 : message.length ≤ img.width * img.height * 3 * bits / 8 - 4 := by
    have hc := hcap
    simp only [max_message_bytes] at hc
    omega
  have hdiv8 : img.width * img.height * 3 * bits / 8 * 8
      ≤ img.width * img.height * 3 * bits := Nat.div_mul_le_self _ _
  set payload := to_bytes_4_be masked.length ++ masked with hpayload
  have hplen : payload.length = 4 + message.length := by
    rw [hpayload, List.length_append, to_bytes_4_be_length, hmlen]
  have hprep : prepare_payload message password = Except.ok payload := by
    unfold prepare_payload
    rw [← hmasked, if_pos (by omega)]
  set order := carrier_pairs bits method with horder
  have hnd : order.Nodup := carrier_pairs_nodup hbits hm
  have hch : ∀ p ∈ order, p.1 < 3 := fun p hp => (carrier_pairs_bounds bits hm p hp).1
  have hpxlen : img.pixels.length * order.length
      = img.width * img.height * 3 * bits := by
    rw [horder, hwf.1, carrier_pairs_length]
    ring
  set pbits := bytes_to_bits payload with hpbits
  have hpblen : pbits.length = (4 + message.length) * 8 := by
    rw [hpbits, bytes_to_bits_length, hplen]
    ring
  set out : Image := ⟨img.width, img.height, embed_pixels order img.pixels pbits⟩
    with hout
  have henc : encode_text_into_image img message password bits method
      = Except.ok out := by
    unfold encode_text_into_image
    rw [hprep]
    unfold encode_payload_into_image
    rw [validate_ok bits method hbits hm]
    show (if payload.length * 8 > img.width * img.height * 3 * bits then
        Except.error (StegoError.capacityExceeded (payload.length * 8)
          (img.width * img.height * 3 * bits))
      else Except.ok out) = Except.ok out
    rw [if_neg (by omega)]
  have hibl : (image_bits img bits method).length
      = img.width * img.height * 3 * bits := by
    rw [image_bits_length, hwf.1]
    ring
  have houtbits : image_bits out bits method
      = pbits ++ (image_bits img bits method).drop ((4 + message.length) * 8) := by
    show (embed_pixels order img.pixels pbits).flatMap (pixel_bits order)
      = pbits ++ (img.pixels.flatMap (pixel_bits order)).drop ((4 + message.length) * 8)
    rw [← hpblen]
    exact flatMap_pixel_bits_embed_pixels order hnd hch img.pixels pbits (by omega)
  have houtlen : (image_bits out bits method).length
      = img.width * img.height * 3 * bits := by
    rw [houtbits, List.length_append, List.length_drop, hibl]
    omega
  have hto4len : (bytes_to_bits (to_bytes_4_be masked.length)).length = 32 := by
    rw [bytes_to_bits_length, to_bytes_4_be_length]
  have hsplit : pbits
      = bytes_to_bits (to_bytes_4_be masked.length) ++ bytes_to_bits masked := by
    rw [hpbits, hpayload, bytes_to_bits_append]
  have htake32 : (image_bits out bits method).take 32
      = bytes_to_bits (to_bytes_4_be masked.length) := by
    rw [houtbits, List.take_append_of_le_length (by omega), hsplit,
      List.take_left' hto4len]
  have hmsglen : bits_to_nat ((image_bits out bits method).take 32)
      = masked.length := by
    rw [htake32, bits_to_nat_bytes_to_bits _ (to_bytes_4_be_lt _),
      from_bytes_to_bytes_4 (by omega)]
  have hdrop32 : (image_bits out bits method).drop 32
      = bytes_to_bits masked
        ++ (image_bits img bits method).drop ((4 + message.length) * 8) := by
    rw [houtbits, List.drop_append_of_le_length (by omega), hsplit,
      List.drop_left' hto4len]
  have hbm : (bytes_to_bits masked).length = 8 * message.length := by
    rw [bytes_to_bits_length, hmlen]
  have htakeL : ((image_bits out bits method).drop 32).take (masked.length * 8)
      = bytes_to_bits masked := by
    rw [hdrop32, List.take_append_of_le_length (by omega),
      List.take_of_length_le (by omega)]
  have hdecimg : decode_payload_from_image out bits method
      = Except.ok (to_bytes_4_be masked.length ++ masked) := by
    rw [decode_payload_from_image_eq out bits method
      (validate_ok bits method hbits hm)]
    rw [if_neg (by rw [houtlen]; omega), hmsglen]
    have hcapout : ¬ masked.length
        > max_message_bytes out.width out.height bits := by
      have : out.width = img.width := by rw [hout]
      have h2 : out.height = img.height := by rw [hout]
      rw [this, h2]
      simp only [max_message_bytes]
      omega
    rw [if_neg hcapout,
      if_neg (by rw [List.length_drop, houtlen]; omega),
      htakeL, bits_to_bytes_bytes_to_bits masked hmb]
  have hdecpay : decode_payload (to_bytes_4_be masked.length ++ masked) password
      = Except.ok message := by
    unfold decode_payload
    rw [if_neg (by rw [List.length_append, to_bytes_4_be_length]; omega),
      List.take_left' (to_bytes_4_be_length _),
      from_bytes_to_bytes_4 (by omega),
      List.drop_left' (to_bytes_4_be_length _)]
    show (if (masked.take masked.length).length ≠ masked.length then
        Except.error StegoError.incompletePayload
      else Except.ok (xor_with_password (masked.take masked.length) password))
      = Except.ok message
    rw [List.take_of_length_le (le_of_eq rfl), if_neg (by omega), hmasked,
      xor_with_password_involutive]
  show (match encode_text_into_image img message password bits method with
    | Except.error e => Except.error e
    | Except.ok encoded => decode_text_from_image encoded password bits method)
      = Except.ok message
  rw [henc]
  show decode_text_from_image out password bits method = Except.ok message
  unfold decode_text_from_image
  rw [hdecimg]
  show decode_payload (to_bytes_4_be masked.length ++ masked) password
    = Except.ok message
  exact hdecpay

/-- Witness for C1: 8×8 image, message bytes [104, 105] ("hi"), password
bytes [7, 200], bits = 1, sequential. -/
theorem text_roundtrip_witness :
    (Image.mk 8 8 (List.replicate 64 ⟨9, 18, 27⟩)).wf ∧
    ([104, 105] : List Nat).length ≤ max_message_bytes 8 8 1 ∧
    encode_then_decode_text ⟨8, 8, List.replicate 64 ⟨9, 18, 27⟩⟩ [104, 105]
      [7, 200] 1 "sequential" = Except.ok [104, 105] :=
  ⟨by decide, by decide,
    text_roundtrip ⟨8, 8, List.replicate 64 ⟨9, 18, 27⟩⟩ (by decide) (by decide)
      (by decide) 1 "sequential" (Or.inl rfl) (by decide) [104, 105] [7, 200]
      (by decide) (by decide) (by decide) (by decide)⟩

theorem xor_with_password_nil (data : List Nat) : xor_with_password data [] = data := rfl

/-- With a masked body of 2³² bytes or more the 4-byte length header cannot be
formed (Python raises `OverflowError`), so the whole round trip reports the
framing failure instead of a message. -/
theorem encode_then_decode_overflow (img : Image) (message password : List Nat)
    (bits : Nat) (method : String)
    (h : 2 ^ 32 ≤ (xor_with_password message password).length) :
    encode_then_decode_text img message password bits method
      = Except.error StegoError.lengthOverflow := by
  have hprep : prepare_payload message password
      = Except.error StegoError.lengthOverflow := by
    unfold prepare_payload
    rw [if_neg (by omega)]
  unfold encode_then_decode_text encode_text_into_image
  rw [hprep]

/-- C1 counterexample: the claim as frozen quantifies over *every* message
that fits the capacity.  On a 131072×131072 image at bits = 3 the capacity is
19327352828 bytes, so a message of 2³² identical bytes fits — but
`prepare_payload` cannot form its 4-byte big-endian length header (Python's
`(2**32).to_bytes(4, "big")` raises `OverflowError`), encoding produces no
image, and the round trip does not return the message. -/
theorem text_roundtrip_counterexample :
    (Image.mk 131072 131072 (List.replicate (131072 * 131072) ⟨0, 0, 0⟩)).wf ∧
    8 ≤ (131072 : Nat) ∧
    (List.replicate (2 ^ 32) (65 : Nat)).length
      ≤ max_message_bytes 131072 131072 3 ∧
    (∀ d ∈ List.replicate (2 ^ 32) (65 : Nat), d < 256) ∧
    encode_then_decode_text
        ⟨131072, 131072, List.replicate (131072 * 131072) ⟨0, 0, 0⟩⟩
        (List.replicate (2 ^ 32) 65) [] 3 "sequential"
      ≠ Except.ok (List.replicate (2 ^ 32) 65) := by
  refine ⟨⟨?_, ?_⟩, by norm_num, ?_, ?_, ?_⟩
  · rw [List.length_replicate]
  · intro px hpx
    rw [List.eq_of_mem_replicate hpx]
    norm_num
  · rw [List.length_replicate]
    norm_num [max_message_bytes]
  · intro d hd
    rw [List.eq_of_mem_replicate hd]
    norm_num
  · rw [encode_then_decode_overflow _ _ _ _ _
      (by rw [xor_with_password_nil, List.length_replicate])]
    exact fun h => Except.noConfusion h

/-! ## Claim C7 — the benchmark sweep -/

/-- One valid-bits cell always produces a row, tagged with its method and
bits.  Over-capacity messages give a `fit = false` row whose error field holds
the fixed does-not-fit marker; for fitting combinations, a failure of embed or
extract is recorded in the row's error field as that codec error, a failure of
the metric computation as that metric error, and only a fully successful cell
carries `error = none` (with `decode_ok` comparing the decoded text).  This
holds for *every* metrics function and *every* method string — failures land
in the row, they are never re-raised. -/
theorem bench_cell_ok {M : Type} (metrics : Image → Image → Except String (M × M × M))
    (image : Image) (message password : List Nat) (method : String) (bits : Nat)
    (hbits : bits = 1 ∨ bits = 2 ∨ bits = 3) :
    ∃ row : BenchRow M,
      bench_cell metrics image message password method bits = Except.ok row ∧
      row.method = method ∧ row.bits = bits ∧
      row.capacity = max_message_bytes image.width image.height bits ∧
      (row.fit = false ↔
        message.length > max_message_bytes image.width image.height bits) ∧
      (row.fit = false → row.error = some RowError.doesNotFit) ∧
      (row.fit = true → ∀ e,
        encode_text_into_image image message password bits method
          = Except.error e →
        row.error = some (RowError.codec e)) ∧
      (row.fit = true → ∀ encoded e,
        encode_text_into_image image message password bits method
          = Except.ok encoded →
        decode_text_from_image encoded password bits method = Except.error e →
        row.error = some (RowError.codec e)) ∧
      (row.fit = true → ∀ encoded decoded e,
        encode_text_into_image image message password bits method
          = Except.ok encoded →
        decode_text_from_image encoded password bits method = Except.ok decoded →
        metrics image encoded = Except.error e →
        row.error = some (RowError.metric e)) ∧
      (row.fit = true → ∀ encoded decoded p m s,
        encode_text_into_image image message password bits method
          = Except.ok encoded →
        decode_text_from_image encoded password bits method = Except.ok decoded →
        metrics image encoded = Except.ok (p, m, s) →
        row.error = none ∧ row.decode_ok = decide (decoded = message)) := by
  unfold bench_cell
  rw [validate_ok bits "sequential" hbits (by decide)]
  by_cases hfits : message.length > max_message_bytes image.width image.height bits
  · refine ⟨⟨method, bits, false, false, none, none, none,
      max_message_bytes image.width image.height bits, none,
      some RowError.doesNotFit⟩, ?_, rfl, rfl, rfl, iff_of_true rfl hfits,
      fun _ => rfl, by simp, by simp, by simp, by simp⟩
    simp only [if_pos hfits]
  · rcases henc : encode_text_into_image image message password bits method
      with e | encoded
    · refine ⟨⟨method, bits, true, false, none, none, none,
        max_message_bytes image.width image.height bits,
        if max_message_bytes image.width image.height bits = 0 then none
          else some ((message.length : ℚ)
            / ((max_message_bytes image.width image.height bits : Nat) : ℚ)),
        some (RowError.codec e)⟩, ?_, rfl, rfl, rfl,
        iff_of_false (by simp) (by omega), by simp, ?_, ?_, ?_, ?_⟩
      · simp only [if_neg hfits, henc]
      · intro _ e' henc'
        injection henc' with h
        subst h
        rfl
      · intro _ encoded' e' henc' _
        exact Except.noConfusion henc'
      · intro _ encoded' decoded' e' henc' _ _
        exact Except.noConfusion henc'
      · intro _ encoded' decoded' p' m' s' henc' _ _
        exact Except.noConfusion henc'
    · rcases hdec : decode_text_from_image encoded password bits method
        with e | decoded
      · refine ⟨⟨method, bits, true, false, none, none, none,
          max_message_bytes image.width image.height bits,
          if max_message_bytes image.width image.height bits = 0 then none
            else some ((message.length : ℚ)
              / ((max_message_bytes image.width image.height bits : Nat) : ℚ)),
          some (RowError.codec e)⟩, ?_, rfl, rfl, rfl,
          iff_of_false (by simp) (by omega), by simp, ?_, ?_, ?_, ?_⟩
        · simp only [if_neg hfits, henc, hdec]
        · intro _ e' henc'
          exact Except.noConfusion henc'
        · intro _ encoded' e' henc' hdec'
          injection henc' with h
          subst h
          rw [hdec] at hdec'
          injection hdec' with h2
          subst h2
          rfl
        · intro _ encoded' decoded' e' henc' hdec' _
          injection henc' with h
          subst h
          rw [hdec] at hdec'
          exact Except.noConfusion hdec'
        · intro _ encoded' decoded' p' m' s' henc' hdec' _
          injection henc' with h
          subst h
          rw [hdec] at hdec'
          exact Except.noConfusion hdec'
      · rcases hmet : metrics image encoded with e | tri
        · refine ⟨⟨method, bits, true, false, none, none, none,
            max_message_bytes image.width image.height bits,
            if max_message_bytes image.width image.height bits = 0 then none
              else some ((message.length : ℚ)
                / ((max_message_bytes image.width image.height bits : Nat) : ℚ)),
            some (RowError.metric e)⟩, ?_, rfl, rfl, rfl,
            iff_of_false (by simp) (by omega), by simp, ?_, ?_, ?_, ?_⟩
          · simp only [if_neg hfits, henc, hdec, hmet]
          · intro _ e' henc'
            exact Except.noConfusion henc'
          · intro _ encoded' e' henc' hdec'
            injection henc' with h
            subst h
            rw [hdec] at hdec'
            exact Except.noConfusion hdec'
          · intro _ encoded' decoded' e' henc' _ hmet'
            injection henc' with h
            subst h
            rw [hmet] at hmet'
            injection hmet' with h3
            subst h3
            rfl
          · intro _ encoded' decoded' p' m' s' henc' _ hmet'
            injection henc' with h
            subst h
            rw [hmet] at hmet'
            exact Except.noConfusion hmet'
        · rcases tri with ⟨p, m, s⟩
          refine ⟨⟨method, bits, true, decide (decoded = message), some p, some m,
            some s, max_message_bytes image.width image.height bits,
            if max_message_bytes image.width image.height bits = 0 then none
              else some ((message.length : ℚ)
                / ((max_message_bytes image.width image.height bits : Nat) : ℚ)),
            none⟩, ?_, rfl, rfl, rfl,
            iff_of_false (by simp) (by omega), by simp, ?_, ?_, ?_, ?_⟩
          · simp only [if_neg hfits, henc, hdec, hmet]
          · intro _ e' henc'
            exact Except.noConfusion henc'
          · intro _ encoded' e' henc' hdec'
            injection henc' with h
            subst h
            rw [hdec] at hdec'
            exact Except.noConfusion hdec'
          · intro _ encoded' decoded' e' henc' _ hmet'
            injection henc' with h
            subst h
            rw [hmet] at hmet'
            exact Except.noConfusion hmet'
          · intro _ encoded' decoded' p' m' s' henc' hdec' _
            injection henc' with h
            subst h
            rw [hdec] at hdec'
            injection hdec' with h2
            subst h2
            exact ⟨rfl, rfl⟩

theorem run_cells_ok {M : Type} (metrics : Image → Image → Except String (M × M × M))
    (image : Image) (message password : List Nat)
    (cells : List (String × Nat))
    (hb : ∀ c ∈ cells, c.2 = 1 ∨ c.2 = 2 ∨ c.2 = 3) :
    ∃ rows : List (BenchRow M),
      run_cells metrics image message password cells = Except.ok rows ∧
      rows.map (fun r => (r.method, r.bits)) = cells ∧
      ∀ r ∈ rows,
        r.capacity = max_message_bytes image.width image.height r.bits ∧
        (r.fit = false ↔
          message.length > max_message_bytes image.width image.height r.bits) ∧
        (r.fit = false → r.error = some RowError.doesNotFit) ∧
        (r.fit = true → ∀ e,
          encode_text_into_image image message password r.bits r.method
            = Except.error e →
          r.error = some (RowError.codec e)) ∧
        (r.fit = true → ∀ encoded e,
          encode_text_into_image image message password r.bits r.method
            = Except.ok encoded →
          decode_text_from_image encoded password r.bits r.method
            = Except.error e →
          r.error = some (RowError.codec e)) ∧
        (r.fit = true → ∀ encoded decoded e,
          encode_text_into_image image message password r.bits r.method
            = Except.ok encoded →
          decode_text_from_image encoded password r.bits r.method
            = Except.ok decoded →
          metrics image encoded = Except.error e →
          r.error = some (RowError.metric e)) ∧
        (r.fit = true → ∀ encoded decoded p m s,
          encode_text_into_image image message password r.bits r.method
            = Except.ok encoded →
          decode_text_from_image encoded password r.bits r.method
            = Except.ok decoded →
          metrics image encoded = Except.ok (p, m, s) →
          r.error = none ∧ r.decode_ok = decide (decoded = message)) := by
  induction cells with
  | nil => exact ⟨[], rfl, rfl, by simp⟩
  | cons c rest ih =>
    obtain ⟨row, hcell, hmeth, hbits2, hcap, hfit, herr, hrec1, hrec2, hrec3, hrec4⟩ :=
      bench_cell_ok metrics image message password c.1 c.2
        (hb c (List.mem_cons_self _ _))
    obtain ⟨rows, hrun, hmap, hall⟩ := ih (fun x hx => hb x (List.mem_cons_of_mem _ hx))
    refine ⟨row :: rows, ?_, ?_, ?_⟩
    · simp only [run_cells, hcell, hrun]
    · simp only [List.map_cons, hmap, hmeth, hbits2]
    · intro r hr
      rcases List.mem_cons.mp hr with rfl | hr'
      · rw [hbits2, hmeth]
        exact ⟨hcap, hfit, herr, hrec1, hrec2, hrec3, hrec4⟩
      · exact hall r hr'

/-- C7 (amended): for every image, message, password, metrics function, every
method list and every bit-depth list *drawn from {1,2,3}*, the sweep returns
exactly one row per (method, bits) pair of the cross product — method outer,
bits inner — each row tagged with its pair; over-capacity combinations yield
`fit = false` rows carrying the fixed error marker; and for fitting
combinations any failure during embed, extract or metric computation is
recorded in that row's error field (codec errors as `codec`, metric errors as
`metric`; only a fully successful cell has `error = none`) without aborting
the sweep (the theorem quantifies over arbitrary, possibly always-failing,
metrics and arbitrary method strings).  With a bit depth outside {1,2,3} the
capacity validation raises outside the per-cell `try` and the whole sweep
aborts — see the counterexample. -/
theorem run_mode_benchmark_rows {M : Type}
    (metrics : Image → Image → Except String (M × M × M))
    (image : Image) (message password : List Nat)
    (bits_options : List Nat) (methods : List String)
    (hb : ∀ b ∈ bits_options, b = 1 ∨ b = 2 ∨ b = 3) :
    ∃ rows : List (BenchRow M),
      run_mode_benchmark metrics image message password bits_options methods
        = Except.ok rows ∧
      rows.map (fun r => (r.method, r.bits))
        = methods.flatMap (fun method => bits_options.map fun bits => (method, bits)) ∧
      rows.length = methods.length * bits_options.length ∧
      ∀ r ∈ rows,
        (r.fit = false ↔
          message.length > max_message_bytes image.width image.height r.bits) ∧
        (r.fit = false → r.error = some RowError.doesNotFit) ∧
        (r.fit = true → ∀ e,
          encode_text_into_image image message password r.bits r.method
            = Except.error e →
          r.error = some (RowError.codec e)) ∧
        (r.fit = true → ∀ encoded e,
          encode_text_into_image image message password r.bits r.method
            = Except.ok encoded →
          decode_text_from_image encoded password r.bits r.method
            = Except.error e →
          r.error = some (RowError.codec e)) ∧
        (r.fit = true → ∀ encoded decoded e,
          encode_text_into_image image message password r.bits r.method
            = Except.ok encoded →
          decode_text_from_image encoded password r.bits r.method
            = Except.ok decoded →
          metrics image encoded = Except.error e →
          r.error = some (RowError.metric e)) ∧
        (r.fit = true → ∀ encoded decoded p m s,
          encode_text_into_image image message password r.bits r.method
            = Except.ok encoded →
          decode_text_from_image encoded password r.bits r.method
            = Except.ok decoded →
          metrics image encoded = Except.ok (p, m, s) →
          r.error = none ∧ r.decode_ok = decide (decoded = message)) := by
  obtain ⟨rows, hrun, hmap, hall⟩ := run_cells_ok metrics image message password
    (methods.flatMap fun method => bits_options.map fun bits => (method, bits))
    (by
      intro c hc
      simp only [List.mem_flatMap, List.mem_map] at hc
      obtain ⟨m, _, b, hbmem, rfl⟩ := hc
      exact hb b hbmem)
  refine ⟨rows, hrun, hmap, ?_, ?_⟩
  · have hlen := congrArg List.length hmap
    simp only [List.length_map] at hlen
    rw [hlen, List.length_flatMap]
    simp [Function.comp_def, List.map_const', List.sum_replicate, smul_eq_mul,
      mul_comm]
  · intro r hr
    obtain ⟨_, a1, a2, a3, a4, a5, a6⟩ := hall r hr
    exact ⟨a1, a2, a3, a4, a5, a6⟩

/-- Witness for C7: 8×8 image, empty message, bits ∈ {1,2}, both methods —
the sweep returns exactly 4 correctly tagged rows. -/
theorem run_mode_benchmark_rows_witness :
    (∀ b ∈ ([1, 2] : List Nat), b = 1 ∨ b = 2 ∨ b = 3) ∧
    (∃ rows : List (BenchRow Unit),
      run_mode_benchmark (fun _ _ => Except.ok ((), (), ()))
          ⟨8, 8, List.replicate 64 ⟨9, 18, 27⟩⟩ [] [] [1, 2]
          ["sequential", "interleaved"]
        = Except.ok rows ∧
      rows.map (fun r => (r.method, r.bits))
        = (["sequential", "interleaved"].flatMap fun method =>
            ([1, 2] : List Nat).map fun bits => (method, bits)) ∧
      rows.length = (["sequential", "interleaved"] : List String).length
        * ([1, 2] : List Nat).length ∧
      ∀ r ∈ rows,
        (r.fit = false ↔
          ([] : List Nat).length > max_message_bytes 8 8 r.bits) ∧
        (r.fit = false → r.error = some RowError.doesNotFit)) := by
  refine ⟨by decide, ?_⟩
  obtain ⟨rows, h1, h2, h3, h4⟩ :=
    run_mode_benchmark_rows (fun _ _ => Except.ok ((), (), ()))
      ⟨8, 8, List.replicate 64 ⟨9, 18, 27⟩⟩ [] [] [1, 2]
      ["sequential", "interleaved"] (by decide)
  exact ⟨rows, h1, h2, h3, fun r hr => ⟨(h4 r hr).1, (h4 r hr).2.1⟩⟩

/-- C7 counterexample: with `bits_options = [4]` the sweep raises the
parameter-validation error instead of returning a (fit-tagged) row per
combination — one bad configuration aborts the whole batch, contradicting the
claim's "never raises" for *every* finite list of bit-depth options. -/
theorem run_mode_benchmark_counterexample :
    run_mode_benchmark (fun _ _ => Except.ok ((), (), ()))
        ⟨1, 1, [⟨0, 0, 0⟩]⟩ [] [] [4] ["sequential"]
      = Except.error StegoError.invalidParameter := by
  rfl

end Stego
